import Mathlib

/-!
# Verification of the glb-compressor transform engine

Shallow embedding of the custom glTF-Transform transforms of
`src/lib/transforms.ts` and of the pipeline orchestration of the
`compress` module (`src/unnamed/part_009`), with theorems settling the
frozen claims about them.

Modelling conventions:

* JavaScript numbers are modelled as rationals (`ℚ`); the absolute-tolerance
  comparisons the transforms perform are exact over `ℚ`.
* `TypedArray`s are modelled as `List ℚ` (vertex/keyframe data) or `List ℕ`
  (index data, whose source arrays hold unsigned integers).  The constructor
  type of an index array is recorded so that element-type widening is
  observable.  TypedArray wrap-around is not modelled: every value the
  transforms write is bounded by a vertex count, which in the source is at
  most the TypedArray length limit `2^32 - 1`, so no wrap occurs.
* The source's `at` helper throws a `RangeError` on an out-of-bounds read.
  The model reads with `List.getD _ _ 0` instead; every theorem below carries
  well-formedness hypotheses (the spec's §3 invariants) under which all reads
  performed by the source are in bounds, so the two agree on the stated
  inputs.
* `console.log` statements and the diagnostic counters that only feed them
  are omitted: they do not affect the document.
-/

namespace GlbCompressor

/-- `|a - b| ≤ tol`, the absolute-tolerance comparison used throughout
`transforms.ts` (`Math.abs(x - y) <= tolerance` resp. `> tolerance`). -/
def nearB (tol a b : ℚ) : Bool := |a - b| ≤ tol

/-- Component-wise agreement of two vectors within `tol`, requiring equal
length (the source checks `length !==` before `every((v, i) => ...)`). -/
def vecAgree (tol : ℚ) (v ref : List ℚ) : Bool :=
  v.length = ref.length && (List.range v.length).all fun i =>
    nearB tol (v.getD i 0) (ref.getD i 0)

/-! ## Geometry data model

A `Primitive` owns named vertex-attribute accessors and an optional index
accessor, mirroring `prim.listSemantics()/getAttribute()/getIndices()`.
Accessor objects are modelled per semantic (the transforms never share one
accessor between two semantics of the same primitive). -/

/-- The constructor (element type) of a TypedArray, as far as the claims
need it.  `u32` is `Uint32Array`; `other` stands for any other constructor
(`Uint16Array`, `Float32Array`, ...). -/
inductive ArrCtor where
  | u32
  | u16
  | u8
  | f32
  deriving DecidableEq, Repr

/-- A vertex-attribute accessor: `getElementSize()`, `getArray()` (which may
be `null`), and the array's constructor. -/
structure AttrAccessor where
  ty : ArrCtor
  elementSize : ℕ
  data : Option (List ℚ)
  deriving DecidableEq, Repr

/-- An index accessor: `getArray()` (may be `null`) holding unsigned
integers, plus the array's constructor. -/
structure IndexAccessor where
  ty : ArrCtor
  data : Option (List ℕ)
  deriving DecidableEq, Repr

/-- A mesh primitive: render mode (`4` = TRIANGLES), named attributes in
`listSemantics()` order, and optional indices. -/
structure Primitive where
  mode : ℕ
  attributes : List (String × AttrAccessor)
  indices : Option IndexAccessor
  deriving DecidableEq, Repr

namespace Primitive

/-- `prim.getAttribute(semantic)`: first accessor bound to `semantic`. -/
def getAttribute (p : Primitive) (semantic : String) : Option AttrAccessor :=
  (p.attributes.find? fun sa => sa.1 = semantic).map (·.2)

end Primitive

/-! ## `mergeByDistance` (src/lib/transforms.ts:58-141)

The spatial-hash build loop is modelled as a fold over the vertex numbers
`0, ..., vertCount-1`; the JS `Map` becomes an association list (only `get`
and `set` of fresh keys are used, for which insertion order is
irrelevant). -/

/-- State of the spatial-hash build loop: the `vertexMap` from quantized
keys to canonical indices, the `remap` array (built up in vertex order; the
source preallocates a `Uint32Array(vertCount)` and writes slot `i` at
iteration `i`, which is the same thing), and `newToOld`. -/
structure BuildState where
  vertexMap : List ((ℤ × ℤ × ℤ) × ℕ)
  remap : List ℕ
  newToOld : List ℕ
  deriving Repr

/-- One iteration of the spatial-hash loop body for vertex `i`, with the
quantized key supplied by `qk`. -/
def buildStep (qk : ℕ → ℤ × ℤ × ℤ) (st : BuildState) (i : ℕ) : BuildState :=
  let key := qk i
  match st.vertexMap.find? (fun e => e.1 = key) with
  | some e => { st with remap := st.remap ++ [e.2] }
  | none =>
      let newIdx := st.newToOld.length
      { vertexMap := (key, newIdx) :: st.vertexMap
        remap := st.remap ++ [newIdx]
        newToOld := st.newToOld ++ [i] }

/-- The whole spatial-hash loop over vertices `0, ..., n-1`. -/
def buildRemap (qk : ℕ → ℤ × ℤ × ℤ) (n : ℕ) : BuildState :=
  (List.range n).foldl (buildStep qk) ⟨[], [], []⟩

/-- Quantized key of vertex `i`: `Math.round(coordinate * precision)` per
axis.  Mathlib's `round` on `ℚ` is `⌊x + 1/2⌋`, which matches JS
`Math.round` (half-up, also for negative halves). -/
def quantKey (precision : ℚ) (positions : List ℚ) (i : ℕ) : ℤ × ℤ × ℤ :=
  (round (positions.getD (i * 3) 0 * precision),
   round (positions.getD (i * 3 + 1) 0 * precision),
   round (positions.getD (i * 3 + 2) 0 * precision))

/-- Compact one attribute: gather the canonical vertices in first-seen order
(`newArray[i*itemSize+j] = oldArray[newToOld[i]*itemSize+j]`).  Accessors
with a `null` array are left untouched (`continue`). -/
def compactAttr (newToOld : List ℕ) (a : AttrAccessor) : AttrAccessor :=
  match a.data with
  | none => a
  | some oldArray =>
      { a with data := some <|
          (newToOld.map fun oldIdx =>
            (List.range a.elementSize).map fun j =>
              oldArray.getD (oldIdx * a.elementSize + j) 0).flatten }

/-- `mergeByDistance` on one primitive (the body of the inner loop of
src/lib/transforms.ts:63-132).  Primitives without a position accessor,
without indices, or with a `null` backing array are skipped, as is a
primitive in which no duplicate quantized position is found. -/
def mergeByDistancePrim (tolerance : ℚ) (p : Primitive) : Primitive :=
  match p.getAttribute "POSITION", p.indices with
  | some posAccessor, some indicesAccessor =>
    match posAccessor.data, indicesAccessor.data with
    | some positions, some indices =>
        let precision : ℚ := 1 / tolerance
        let vertCount : ℕ := positions.length / 3
        let st := buildRemap (quantKey precision positions) vertCount
        if vertCount - st.newToOld.length = 0 then p
        else
          { p with
            attributes := p.attributes.map fun sa =>
              (sa.1, compactAttr st.newToOld sa.2)
            indices := some
              { ty := ArrCtor.u32
                data := some (indices.map fun ix => st.remap.getD ix 0) } }
    | _, _ => p
  | _, _ => p

/-- Document-level `mergeByDistance`: the transform maps the primitive body
over every primitive of every mesh (`listMeshes`/`listPrimitives`). -/
def mergeByDistance (tolerance : ℚ) (meshes : List (List Primitive)) :
    List (List Primitive) :=
  meshes.map fun prims => prims.map (mergeByDistancePrim tolerance)

/-- A primitive's vertex count as `mergeByDistance` sees it:
`positions.length / 3` (zero without position data). -/
def vertCountOf (p : Primitive) : ℕ :=
  match p.getAttribute "POSITION" with
  | some a =>
    match a.data with
    | some positions => positions.length / 3
    | none => 0
  | none => 0

/-- Well-formedness of a primitive for `mergeByDistance`, under which every
array read the source performs (via its throwing `at` helper) is in
bounds: the position accessor holds three components per vertex, every
index refers to an existing vertex (the spec's §3 invariant), and each
attribute array covers all vertices.  Primitives the transform skips are
vacuously well-formed. -/
def mergeWF (p : Primitive) : Bool :=
  match p.getAttribute "POSITION", p.indices with
  | some posAcc, some idxAcc =>
    match posAcc.data, idxAcc.data with
    | some positions, some indices =>
        posAcc.elementSize = 3 &&
        decide (3 ∣ positions.length) &&
        indices.all (fun ix => ix < positions.length / 3) &&
        p.attributes.all (fun sa =>
          match sa.2.data with
          | some arr =>
              decide (sa.2.elementSize * (positions.length / 3) ≤ arr.length)
          | none => true)
    | _, _ => true
  | _, _ => true

/-- Invariant of the spatial-hash build loop: every `vertexMap` entry maps
the quantized key of a canonical vertex to its (in-range) canonical index,
every canonical vertex is registered, every `remap` slot refers to a
canonical index, and the canonical vertices have pairwise distinct
quantized keys. -/
structure BuildInv (qk : ℕ → ℤ × ℤ × ℤ) (st : BuildState) : Prop where
  map_lt : ∀ kv ∈ st.vertexMap, kv.2 < st.newToOld.length
  map_key : ∀ kv ∈ st.vertexMap, qk (st.newToOld.getD kv.2 0) = kv.1
  map_complete : ∀ j < st.newToOld.length,
    (qk (st.newToOld.getD j 0), j) ∈ st.vertexMap
  remap_lt : ∀ v ∈ st.remap, v < st.newToOld.length
  keys_inj : st.newToOld.Pairwise fun a b => qk a ≠ qk b

/-! ## `removeDegenerateFaces` (src/lib/transforms.ts:385-457) -/

/-- The squared cross product `cx² + cy² + cz²` of the two edge vectors of
the triangle `(i0, i1, i2)`, read from `positions` exactly as in
src/lib/transforms.ts:414-435. -/
def crossSq (positions : List ℚ) (i0 i1 i2 : ℕ) : ℚ :=
  let v0x := positions.getD (i0 * 3) 0
  let v0y := positions.getD (i0 * 3 + 1) 0
  let v0z := positions.getD (i0 * 3 + 2) 0
  let v1x := positions.getD (i1 * 3) 0
  let v1y := positions.getD (i1 * 3 + 1) 0
  let v1z := positions.getD (i1 * 3 + 2) 0
  let v2x := positions.getD (i2 * 3) 0
  let v2y := positions.getD (i2 * 3 + 1) 0
  let v2z := positions.getD (i2 * 3 + 2) 0
  let ax := v1x - v0x
  let ay := v1y - v0y
  let az := v1z - v0z
  let bx := v2x - v0x
  let by' := v2y - v0y
  let bz := v2z - v0z
  let cx := ay * bz - az * by'
  let cy := az * bx - ax * bz
  let cz := ax * by' - ay * bx
  cx * cx + cy * cy + cz * cz

/-- The source's test `0.5 * Math.sqrt(S) < minArea`, carried out in `ℚ`:
over the reals, for `S ≥ 0`, `½·√S < m` iff `0 ≤ m` and `S < 4·m²`
(`areaLt_iff_real` below proves this encoding exact). -/
def areaLtB (minArea S : ℚ) : Bool := 0 ≤ minArea && S < 4 * minArea ^ 2

/-- The keep test of the triangle loop: indices pairwise distinct and area
not below `minArea`. -/
def keepTri (minArea : ℚ) (positions : List ℚ) (t : ℕ × ℕ × ℕ) : Bool :=
  !(t.1 = t.2.1 || t.2.1 = t.2.2 || t.1 = t.2.2) &&
    !areaLtB minArea (crossSq positions t.1 t.2.1 t.2.2)

/-- Group an index list into consecutive triples, as the loop
`for (i = 0; i < indices.length; i += 3)` visits them.  A trailing group of
fewer than three indices makes the source's `at` throw; theorems assume
`3 ∣ indices.length`, under which there is no such group. -/
def triplesOf : List ℕ → List (ℕ × ℕ × ℕ)
  | i0 :: i1 :: i2 :: rest => (i0, i1, i2) :: triplesOf rest
  | _ => []

/-- `removeDegenerateFaces` on one primitive
(src/lib/transforms.ts:389-448): only TRIANGLES-mode primitives with
non-null positions and indices are touched, and the index accessor is
rewritten (as a `Uint32Array`) only when at least one triangle was
dropped. -/
def removeDegenerateFacesPrim (minArea : ℚ) (p : Primitive) : Primitive :=
  if p.mode ≠ 4 then p
  else
    match p.getAttribute "POSITION", p.indices with
    | some posAccessor, some indicesAccessor =>
      match posAccessor.data, indicesAccessor.data with
      | some positions, some indices =>
          let validTriples :=
            (triplesOf indices).filter (keepTri minArea positions)
          let validIndices :=
            validTriples.flatMap fun t => [t.1, t.2.1, t.2.2]
          if validIndices.length < indices.length then
            { p with
              indices := some
                ({ ty := ArrCtor.u32, data := some validIndices }) }
          else p
      | _, _ => p
    | _, _ => p

/-- Document-level `removeDegenerateFaces`. -/
def removeDegenerateFaces (minArea : ℚ) (meshes : List (List Primitive)) :
    List (List Primitive) :=
  meshes.map fun prims => prims.map (removeDegenerateFacesPrim minArea)

/-! ## `normalizeWeights` (src/lib/transforms.ts:276-312) -/

/-- The normalization guard (src/lib/transforms.ts:296):
`sum > 0 && Math.abs(sum - 1.0) > 1e-6`. -/
def needsNormalize (s : ℚ) : Bool := 0 < s && |s - 1| > 1 / 1000000

/-- The loop body for one vertex: divide every component by the group sum
exactly when the guard fires (src/lib/transforms.ts:291-302). -/
def normalizeChunk (chunk : List ℚ) : List ℚ :=
  if needsNormalize chunk.sum then chunk.map (· / chunk.sum) else chunk

/-- Process `n` consecutive weight groups of `elementSize` components each.
Data beyond the `n` processed groups (none, for a well-formed accessor) is
left as is, matching the in-place mutation of the source. -/
def normalizeChunks (elementSize : ℕ) : ℕ → List ℚ → List ℚ
  | 0, arr => arr
  | n + 1, arr =>
      normalizeChunk (arr.take elementSize) ++
        normalizeChunks elementSize n (arr.drop elementSize)

/-- The `i`-th group of `elementSize` consecutive components of `arr`
(vertex `i`'s weight vector; the source's
`arr[i*elementSize+j], j < elementSize`). -/
def vertexChunk (elementSize : ℕ) (arr : List ℚ) (i : ℕ) : List ℚ :=
  (arr.drop (i * elementSize)).take elementSize

/-- `normalizeWeights` on one primitive (src/lib/transforms.ts:280-305):
primitives without a `WEIGHTS_0` attribute or with a null array are
skipped; otherwise every vertex group is renormalized in place.
The vertex-group sum `Σⱼ arr[i*elementSize+j]` equals the sum of the
`i`-th chunk, so the fold over chunks matches the source's indexed loop
under the well-formedness hypotheses of the theorems.  The update touches
every attribute entry named `WEIGHTS_0`; a primitive binds each semantic at
most once, so this coincides with the source's `setArray` on the accessor
returned by `getAttribute`. -/
def normalizeWeightsPrim (p : Primitive) : Primitive :=
  match p.getAttribute "WEIGHTS_0" with
  | none => p
  | some weights0 =>
    match weights0.data with
    | none => p
    | some arr =>
        let elementSize := weights0.elementSize
        let count := arr.length / elementSize
        { p with attributes := p.attributes.map fun sa =>
            if sa.1 = "WEIGHTS_0" then
              (sa.1,
                { sa.2 with
                  data := some (normalizeChunks elementSize count arr) })
            else sa }

/-- Document-level `normalizeWeights`. -/
def normalizeWeights (meshes : List (List Primitive)) :
    List (List Primitive) :=
  meshes.map fun prims => prims.map normalizeWeightsPrim

/-! ## Animation data model (`removeStaticTracksWithBake`)

src/lib/transforms.ts:479-681.  Node identity is its position in
`doc.getRoot().listNodes()` (the source builds `nodeIndexMap` exactly so);
a channel's `getTargetNode()` is therefore modelled as an optional node
number, which may lie outside the node list (a detached node), in which
case `nodeIndexMap.get(...) ?? -1` yields `-1`.  Sampler identity is a
position in a document-wide sampler pool, so that several channels may
share one sampler object. -/

/-- `channel.getTargetPath()`: the four animatable paths of the source's
`switch` (src/lib/transforms.ts:597-612). -/
inductive Path where
  | translation
  | rotation
  | scale
  | weights
  deriving DecidableEq, Repr

/-- A keyframe accessor (`sampler.getOutput()` target):
`getElementSize()` and `getArray()` (which may be `null`). -/
structure AccessorM where
  elementSize : ℕ
  data : Option (List ℚ)
  deriving DecidableEq, Repr

/-- An animation sampler; only its output accessor (possibly `null`) is
read by the transform. -/
structure SamplerM where
  output : Option AccessorM
  deriving DecidableEq, Repr

/-- An animation channel: optional sampler (by pool id), optional target
node (by node number) and optional target path. -/
structure Channel where
  sampler : Option ℕ
  targetNode : Option ℕ
  targetPath : Option Path
  deriving DecidableEq, Repr

/-- An animation: its channel list (`listChannels()`). -/
structure Animation where
  channels : List Channel
  deriving DecidableEq, Repr

/-- A node's rest pose: `getTranslation()`, `getRotation()`, `getScale()`,
and the morph-target weights of its mesh if it has one
(`node.getMesh()?.getWeights()`). -/
structure NodeM where
  translation : List ℚ
  rotation : List ℚ
  scale : List ℚ
  meshWeights : Option (List ℚ)
  deriving DecidableEq, Repr

/-- The animation-relevant view of a document: `listNodes()`,
`listAnimations()`, and the sampler pool. -/
structure AnimDoc where
  nodes : List NodeM
  animations : List Animation
  samplers : List SamplerM
  deriving DecidableEq, Repr

/-- `channel.getSampler()`: pool lookup; an id outside the pool behaves as a
`null` sampler. -/
def getSampler (doc : AnimDoc) (c : Channel) : Option SamplerM :=
  c.sampler.bind fun sid => doc.samplers.get? sid

/-- The `"nodeIndex::path"` key of a channel
(src/lib/transforms.ts:518-519): `nodeIndexMap.get(targetNode) ?? -1`
paired with the path; `none` when the channel lacks a target node or
path. -/
def chanKey (doc : AnimDoc) (c : Channel) : Option (ℤ × Path) :=
  match c.targetNode, c.targetPath with
  | some n, some p =>
      some (if n < doc.nodes.length then (n : ℤ) else -1, p)
  | _, _ => none

/-- Pass 1's per-channel static test (src/lib/transforms.ts:531-550):
every keyframe from the second on equals the first component-wise within
`tolerance`.  `keyframeCount ≤ 1` (including a short array with
`elementSize > length`) leaves `isStatic` `true`. -/
def isStaticArr (tolerance : ℚ) (elementSize : ℕ) (arr : List ℚ) : Bool :=
  let firstValues := arr.take elementSize
  let keyframeCount := arr.length / elementSize
  (List.range (keyframeCount - 1)).all fun i =>
    (List.range elementSize).all fun j =>
      nearB tolerance (arr.getD ((i + 1) * elementSize + j) 0)
        (firstValues.getD j 0)

/-- Pass 1's record for one channel (src/lib/transforms.ts:500-503). -/
structure TrackInfo where
  isStatic : Bool
  staticValue : Option (List ℚ)
  deriving DecidableEq, Repr

/-- The `TrackInfo` pushed for a channel whose guards all pass
(src/lib/transforms.ts:552-561). -/
def mkTrackInfo (tolerance : ℚ) (elementSize : ℕ) (arr : List ℚ) :
    TrackInfo :=
  let s := isStaticArr tolerance elementSize arr
  { isStatic := s
    staticValue := if s then some (arr.take elementSize) else none }

/-- A channel address: animation number and channel number within it. -/
abbrev Addr := ℕ × ℕ

/-- List enumeration with explicit start index (used to address channels
stably while the deletion pass mutates channel lists). -/
def enumFrom' (n : ℕ) : List α → List (ℕ × α)
  | [] => []
  | a :: as => (n, a) :: enumFrom' (n + 1) as

/-- All channels of the document with their addresses, in the iteration
order of the source's nested loops (animations outer, channels inner). -/
def channelsOf (doc : AnimDoc) : List (Addr × Channel) :=
  (enumFrom' 0 doc.animations).flatMap fun ai =>
    (enumFrom' 0 ai.2.channels).map fun ci => ((ai.1, ci.1), ci.2)

/-- `doc.animations[ai].channels[ci]`. -/
def channelAt (doc : AnimDoc) (ai ci : ℕ) : Option Channel :=
  doc.animations[ai]?.bind fun a => a.channels[ci]?

/-- Pass 1's guard and record for one channel: `none` when the channel is
skipped (missing sampler / node / path, wrong key, `null` output accessor,
`null` or empty output array); otherwise its `TrackInfo`
(src/lib/transforms.ts:511-561). -/
def trackInfoFor (doc : AnimDoc) (tolerance : ℚ) (k : ℤ × Path)
    (c : Channel) : Option TrackInfo :=
  match getSampler doc c with
  | none => none
  | some sampler =>
    if chanKey doc c = some k then
      match sampler.output with
      | none => none
      | some output =>
        match output.data with
        | none => none
        | some outputArray =>
            if outputArray.length = 0 then none
            else some (mkTrackInfo tolerance output.elementSize outputArray)
    else none

/-- `globalTrackMap.get(key)`: the `TrackInfo`s of all surviving channels
for `key`, in iteration order. -/
def tracksFor (doc : AnimDoc) (tolerance : ℚ) (k : ℤ × Path) :
    List TrackInfo :=
  (channelsOf doc).filterMap fun ac => trackInfoFor doc tolerance k ac.2

/-- The node's rest-pose value for a path (the `switch` of
src/lib/transforms.ts:596-612); `none` when a `weights` channel targets a
node without a mesh. -/
def baseValueOf (node : NodeM) : Path → Option (List ℚ)
  | Path.translation => some node.translation
  | Path.rotation => some node.rotation
  | Path.scale => some node.scale
  | Path.weights => node.meshWeights

/-- Pass 2 for one key (src/lib/transforms.ts:567-625): the key is
removable iff it has at least one recorded track, all tracks are static,
all static values agree with the *first* track's value within `tolerance`,
the node number is a valid index, and the node's rest-pose value for the
path agrees with that first value within `tolerance`. -/
def removableB (doc : AnimDoc) (tolerance : ℚ) (k : ℤ × Path) : Bool :=
  match tracksFor doc tolerance k with
  | [] => false
  | firstTrack :: rest =>
    let tracks := firstTrack :: rest
    if tracks.any fun t => !t.isStatic then false
    else
      match firstTrack.staticValue with
      | none => false
      | some reference =>
          (tracks.all fun t =>
            match t.staticValue with
            | none => false
            | some v => vecAgree tolerance v reference) &&
          (0 ≤ k.1 &&
            match doc.nodes.get? k.1.toNat with
            | none => false
            | some node =>
              match baseValueOf node k.2 with
              | none => false
              | some baseValue => vecAgree tolerance baseValue reference)

/-- Pass 3's removal decision for one channel
(src/lib/transforms.ts:629-638): it has a target node and path and its key
is in the removable set. -/
def shouldRemove (doc : AnimDoc) (tolerance : ℚ) (c : Channel) : Bool :=
  match chanKey doc c with
  | none => false
  | some k => removableB doc tolerance k

/-- State of the deletion pass: channels still alive (with addresses),
addresses of disposed channels, and ids of disposed samplers. -/
structure Pass3State where
  live : List (Addr × Channel)
  removed : List Addr
  disposed : List ℕ
  deriving DecidableEq, Repr

/-- The deletion pass (src/lib/transforms.ts:628-669) over a worklist of
channels.  On removal the channel leaves the live set; its sampler is
disposed when `sampler.listParents().length <= 1` — the parents of a
sampler are its owning animation plus every live channel referencing it,
so the count is `1 +` the number of remaining live referrers.  The
diagnostic `skippedNoConsensus` recount of the `else` branch only feeds a
log line and is omitted. -/
def runPass3 (doc : AnimDoc) (tolerance : ℚ) :
    List (Addr × Channel) → Pass3State → Pass3State
  | [], st => st
  | (a, c) :: rest, st =>
    if shouldRemove doc tolerance c then
      let live' := st.live.filter fun e => !(e.1 = a)
      let disposed' :=
        match c.sampler with
        | some sid =>
            if (doc.samplers.get? sid).isSome &&
                1 + live'.countP (fun e => e.2.sampler = some sid) ≤ 1 then
              st.disposed ++ [sid]
            else st.disposed
        | none => st.disposed
      runPass3 doc tolerance rest
        { live := live', removed := st.removed ++ [a], disposed := disposed' }
    else runPass3 doc tolerance rest st

/-- `removeStaticTracksWithBake` (src/lib/transforms.ts:479-681), reported
as the outcome of its deletion pass: which channels survive, which were
disposed, and which samplers were disposed.  (With no animations the
source returns immediately; the worklist is then empty and the pass is a
no-op, so the early return needs no separate case.) -/
def removeStaticTracksWithBake (doc : AnimDoc) (tolerance : ℚ) :
    Pass3State :=
  runPass3 doc tolerance (channelsOf doc) ⟨channelsOf doc, [], []⟩

/-! ### Claim-side consensus predicates

These two definitions follow the *specification's words* for the consensus
condition of `removeStaticTracksWithBake`, to be compared with the
source-derived `removableB` above.  `claimConsensus` is the claim as
stated ("all channels' static values agree *with each other* within τ",
i.e. pairwise); `firstAnchoredConsensus` is the amended version (agreement
is checked against the first channel's static value). -/

/-- All channels of the document targeting key `k`, in document order. -/
def channelsTargeting (doc : AnimDoc) (k : ℤ × Path) : List Channel :=
  ((channelsOf doc).map (·.2)).filter fun c => chanKey doc c = some k

/-- A channel's output element size and array, when its sampler, output
accessor and backing array all exist. -/
def chanOutput (doc : AnimDoc) (c : Channel) : Option (ℕ × List ℚ) :=
  ((getSampler doc c).bind (·.output)).bind fun acc =>
    acc.data.map fun arr => (acc.elementSize, arr)

/-- The claim's "channel is static": every keyframe's output vector equals
the first keyframe's component-wise within the tolerance. -/
def chanIsStatic (doc : AnimDoc) (tolerance : ℚ) (c : Channel) : Bool :=
  match chanOutput doc c with
  | some ea => isStaticArr tolerance ea.1 ea.2
  | none => false

/-- The claim's "static value" of a channel: its first keyframe's output
vector. -/
def chanFirstVal (doc : AnimDoc) (c : Channel) : Option (List ℚ) :=
  (chanOutput doc c).map fun ea => ea.2.take ea.1

/-- Agreement of two optional vectors within the tolerance. -/
def agreeOptB (tolerance : ℚ) : Option (List ℚ) → Option (List ℚ) → Bool
  | some v, some w => vecAgree tolerance v w
  | _, _ => false

/-- The node's rest-pose value for key `k`, when the node number is a real
index. -/
def restPoseOf (doc : AnimDoc) (k : ℤ × Path) : Option (List ℚ) :=
  if 0 ≤ k.1 then (doc.nodes.get? k.1.toNat).bind fun node =>
    baseValueOf node k.2
  else none

/-- Claim C1's consensus, as stated: the key has at least one channel;
every channel targeting it is static; all channels' static values agree
*with each other* (pairwise) within the tolerance; and the agreed value
equals the node's rest-pose value for the path within the tolerance. -/
def claimConsensus (doc : AnimDoc) (tolerance : ℚ) (k : ℤ × Path) : Bool :=
  let cs := channelsTargeting doc k
  !cs.isEmpty &&
  cs.all (chanIsStatic doc tolerance) &&
  (cs.all fun c => cs.all fun c' =>
    agreeOptB tolerance (chanFirstVal doc c) (chanFirstVal doc c')) &&
  (match restPoseOf doc k with
   | none => false
   | some base => cs.all fun c =>
       agreeOptB tolerance (some base) (chanFirstVal doc c))

/-- The amended consensus: agreement is anchored at the *first* channel's
static value (each channel's value within the tolerance of the first's,
and the node's rest-pose value within the tolerance of the first's). -/
def firstAnchoredConsensus (doc : AnimDoc) (tolerance : ℚ) (k : ℤ × Path) :
    Bool :=
  match channelsTargeting doc k with
  | [] => false
  | c0 :: rest =>
    ((c0 :: rest).all (chanIsStatic doc tolerance)) &&
    (match chanFirstVal doc c0 with
     | none => false
     | some reference =>
         ((c0 :: rest).all fun c =>
           agreeOptB tolerance (chanFirstVal doc c) (some reference)) &&
         (match restPoseOf doc k with
          | none => false
          | some base => vecAgree tolerance base reference))

/-- Pass 1's record for a channel, phrased in the claim's vocabulary (the
per-channel image under which `tracksFor` is a `map`). -/
def trackRec (doc : AnimDoc) (tolerance : ℚ) (c : Channel) : TrackInfo :=
  { isStatic := chanIsStatic doc tolerance c
    staticValue := if chanIsStatic doc tolerance c then chanFirstVal doc c
      else none }

/-- Well-formedness of a channel for the consensus claim: if it targets a
node and a path, then it has a sampler whose output accessor and backing
array exist and the array is non-empty.  (The claim's notions "static" and
"static value" presuppose a first keyframe.) -/
def wfChannelB (doc : AnimDoc) (c : Channel) : Bool :=
  !(c.targetNode.isSome && c.targetPath.isSome) ||
  (match chanOutput doc c with
   | some ea => !ea.2.isEmpty
   | none => false)

/-- Well-formedness of every channel of the document. -/
def wfAnimDoc (doc : AnimDoc) : Bool :=
  (channelsOf doc).all fun ac => wfChannelB doc ac.2

/-! ## Pipeline orchestration (`compress`, src/unnamed/part_009:778-920)

The pipeline is modelled as the sequence of transform stages `compress`
executes, plus the final-compression dispatch.  Standard-library stages
(dedup, prune, ...) are opaque names; the claims only concern which stages
run.  The external `gltfpack` step is a function of an environment
recording how the subprocess behaves. -/

/-- The transform stages `compress` can execute, named as in the source
(`instanceXf` stands for `transform.instance`, a reserved word here). -/
inductive Xform where
  | analyzeMeshComplexity
  | dedup
  | prune
  | removeUnusedUVs
  | flatten
  | join
  | weld
  | mergeByDistance
  | removeDegenerateFaces
  | decimateBloatedMeshes
  | instanceXf
  | reorder
  | sparse
  | resample
  | removeStaticTracksWithBake
  | normalizeWeights
  | textureCompress
  | simplify
  | quantize
  | meshopt
  deriving DecidableEq, Repr

/-- How the external `gltfpack` subprocess behaves on one invocation:
whether `Bun.spawn` itself throws (missing binary), the exit code observed
by `await proc.exited` (non-zero after a timeout kill), and whether
reading the output file fails. -/
structure GltfpackEnv where
  spawnFails : Bool
  exitCode : ℤ
  readFails : Bool
  deriving DecidableEq, Repr

/-- `compressWithGltfpack` (src/unnamed/part_009:929-977): returns the
result method on success and `null` on any failure (every throw inside the
`try` is caught and converted to `null`). -/
def compressWithGltfpack (env : GltfpackEnv) : Option String :=
  if env.spawnFails then none
  else if env.exitCode ≠ 0 then none
  else if env.readFails then none
  else some "gltfpack"

/-- The result of `compress`, less the opaque output buffer: the reported
`method` string. -/
structure CompressResultM where
  method : String
  deriving DecidableEq, Repr

/-- The transform stages `compress` runs through `document.transform(...)`
before final compression, in source order (src/unnamed/part_009:813-893).
`skins` is `listSkins().length`; the skin flag `hasSkins` is `skins > 0`
(src/unnamed/part_009:811).  `gpuTransforms` starts as
`[instance, sparse]`; `splice(1, 0, reorder)` inserts `reorder` at
position 1 for non-skinned documents. -/
def mainTrace (skins : ℕ) (simplifyRatio : Option ℚ) : List Xform :=
  let hasSkins : Bool := skins > 0
  let cleanupTransforms : List Xform :=
    [Xform.analyzeMeshComplexity, Xform.dedup, Xform.prune,
      Xform.removeUnusedUVs] ++
    (if !hasSkins then [Xform.flatten, Xform.join, Xform.weld] else [])
  let geometryPhase : List Xform :=
    if !hasSkins then
      [Xform.mergeByDistance, Xform.removeDegenerateFaces, Xform.prune,
        Xform.decimateBloatedMeshes]
    else []
  let gpuTransforms : List Xform :=
    if !hasSkins then [Xform.instanceXf, Xform.reorder, Xform.sparse]
    else [Xform.instanceXf, Xform.sparse]
  let animTransforms : List Xform :=
    [Xform.resample, Xform.removeStaticTracksWithBake] ++
    (if hasSkins then [Xform.normalizeWeights] else [])
  let simplifyPhase : List Xform :=
    match simplifyRatio with
    | some r => if 0 < r ∧ r < 1 then [Xform.simplify] else []
    | none => []
  cleanupTransforms ++ geometryPhase ++ gpuTransforms ++
    animTransforms ++ [Xform.textureCompress] ++ [Xform.prune] ++
    simplifyPhase

/-- The transforms `compressWithMeshopt` (src/unnamed/part_009:986-1002)
runs on the document: `quantize` only for non-skinned documents, then
`meshopt`. -/
def fallbackTail (skins : ℕ) : List Xform :=
  if skins > 0 then [Xform.meshopt] else [Xform.quantize, Xform.meshopt]

/-- The result and executed stages of a `compress` call whose input parsed:
gltfpack is attempted first when available; on a `null` gltfpack result or
without the binary, the in-process meshopt path runs and reports method
`"meshopt"` (src/unnamed/part_009:905-919). -/
def compressOk (skins : ℕ) (simplifyRatio : Option ℚ) (hasGltfpack : Bool)
    (env : GltfpackEnv) : CompressResultM × List Xform :=
  if hasGltfpack then
    match compressWithGltfpack env with
    | some m => (⟨m⟩, mainTrace skins simplifyRatio)
    | none =>
        (⟨"meshopt"⟩, mainTrace skins simplifyRatio ++ fallbackTail skins)
  else (⟨"meshopt"⟩, mainTrace skins simplifyRatio ++ fallbackTail skins)

/-- `compress` (src/unnamed/part_009:778-920) as the pair of its result and
the list of transform stages it executed, or the parse error it throws.
The fallback path is assumed not to throw (the spec's in-process codec is
"always available"). -/
def compress (parseOk : Bool) (skins : ℕ) (simplifyRatio : Option ℚ)
    (hasGltfpack : Bool) (env : GltfpackEnv) :
    Except String (CompressResultM × List Xform) :=
  if !parseOk then Except.error "Failed to parse GLB/glTF"
  else Except.ok (compressOk skins simplifyRatio hasGltfpack env)

/-! ### Concrete example inputs used by witnesses and counterexamples -/

/-- A TRIANGLES primitive with two vertices at the same position and a
`Uint16` index buffer. -/
def mergeExample : Primitive :=
  { mode := 4
    attributes := [("POSITION",
      { ty := ArrCtor.f32, elementSize := 3, data := some [0, 0, 0, 0, 0, 0] })]
    indices := some ({ ty := ArrCtor.u16, data := some [0, 1] }) }

/-- A skinned primitive with one vertex whose two weight components sum to
`4`. -/
def weightsExample : Primitive :=
  { mode := 4
    attributes := [("WEIGHTS_0",
      { ty := ArrCtor.f32, elementSize := 2, data := some [2, 2] })]
    indices := none }

/-- A TRIANGLES primitive whose single triangle repeats an index. -/
def degenExample : Primitive :=
  { mode := 4
    attributes := [("POSITION",
      { ty := ArrCtor.f32, elementSize := 3, data := some [0, 0, 0, 1, 0, 0] })]
    indices := some ({ ty := ArrCtor.u16, data := some [0, 0, 1] }) }

/-- Three channels of one animation target node 0's translation with the
constant outputs `[0]`, `[1]` and `[-1]`; the node's rest translation is
`[0]`.  At tolerance `1`, every channel's value lies within `1` of the
first channel's value `[0]` and of the rest pose, yet the values `[1]` and
`[-1]` differ by `2 > 1` pairwise. -/
def consensusExample : AnimDoc :=
  { nodes := [{ translation := [0]
                rotation := [0, 0, 0, 1]
                scale := [1, 1, 1]
                meshWeights := none }]
    animations := [{ channels := [
      { sampler := some 0, targetNode := some 0,
        targetPath := some Path.translation },
      { sampler := some 1, targetNode := some 0,
        targetPath := some Path.translation },
      { sampler := some 2, targetNode := some 0,
        targetPath := some Path.translation }] }]
    samplers := [
      { output := some { elementSize := 1, data := some [0, 0] } },
      { output := some { elementSize := 1, data := some [1, 1] } },
      { output := some { elementSize := 1, data := some [-1, -1] } }] }

/-- One animation whose single channel has a sampler but no target node:
the deletion pass always retains it. -/
def retainedExample : AnimDoc :=
  { nodes := []
    animations := [{ channels := [
      { sampler := some 0, targetNode := none, targetPath := none }] }]
    samplers := [{ output := some { elementSize := 1, data := some [0] } }] }

/-! ## Theorems -/

/-! ### Branch equations for `mergeByDistancePrim` -/

/-- Unfolding equation of `mergeByDistancePrim` when position and index
data are present. -/
lemma mergeByDistancePrim_eq_of_some {p : Primitive} {tol : ℚ}
    {pa : AttrAccessor} {positions : List ℚ} {ia : IndexAccessor}
    {indices : List ℕ}
    (hP : p.getAttribute "POSITION" = some pa) (hPd : pa.data = some positions)
    (hI : p.indices = some ia) (hId : ia.data = some indices) :
    mergeByDistancePrim tol p =
      (if positions.length / 3 -
          (buildRemap (quantKey (1 / tol) positions)
            (positions.length / 3)).newToOld.length = 0 then p
      else
        { p with
          attributes := p.attributes.map fun sa =>
            (sa.1, compactAttr (buildRemap (quantKey (1 / tol) positions)
              (positions.length / 3)).newToOld sa.2)
          indices := some
            ({ ty := ArrCtor.u32
               data := some (indices.map fun ix =>
                (buildRemap (quantKey (1 / tol) positions)
                  (positions.length / 3)).remap.getD ix 0) }) }) := by
  simp only [mergeByDistancePrim, hP, hPd, hI, hId]

/-- C9: `mergeByDistancePrim` leaves a primitive entirely unchanged when it
lacks a `POSITION` attribute, lacks indices, or either backing array is
`null`; and a primitive it rewrites has all four present. -/
theorem mergeByDistancePrim_frame (tol : ℚ) (p : Primitive) :
    ((p.getAttribute "POSITION" = none ∨ p.indices = none ∨
      (∃ a, p.getAttribute "POSITION" = some a ∧ a.data = none) ∨
      (∃ ia, p.indices = some ia ∧ ia.data = none)) →
      mergeByDistancePrim tol p = p) ∧
    (mergeByDistancePrim tol p ≠ p →
      ∃ a arr ia iarr, p.getAttribute "POSITION" = some a ∧
        a.data = some arr ∧ p.indices = some ia ∧ ia.data = some iarr) := by
  have hcase :
      (∃ a arr ia iarr, p.getAttribute "POSITION" = some a ∧
        a.data = some arr ∧ p.indices = some ia ∧ ia.data = some iarr) ∨
      mergeByDistancePrim tol p = p := by
    rcases hP : p.getAttribute "POSITION" with _ | a
    · exact Or.inr (by simp only [mergeByDistancePrim, hP])
    rcases hI : p.indices with _ | ia
    · exact Or.inr (by simp only [mergeByDistancePrim, hP, hI])
    rcases hPd : a.data with _ | arr
    · exact Or.inr (by simp only [mergeByDistancePrim, hP, hI, hPd])
    rcases hId : ia.data with _ | iarr
    · exact Or.inr (by simp only [mergeByDistancePrim, hP, hI, hPd, hId])
    exact Or.inl ⟨a, arr, ia, iarr, rfl, hPd, rfl, hId⟩
  constructor
  · rintro (h | h | ⟨a, ha, hd⟩ | ⟨ia, hia, hd⟩) <;>
    · rcases hcase with ⟨a', arr', ia', iarr', h1, h2, h3, h4⟩ | heq
      · simp_all
      · exact heq
  · intro hne
    rcases hcase with h | heq
    · exact h
    · exact absurd heq hne

/-- Witness for `mergeByDistancePrim_frame` at a primitive with no
attributes and no indices. -/
theorem mergeByDistancePrim_frame_witness :
    mergeByDistancePrim 1 ({ mode := 4, attributes := [], indices := none }) =
      ({ mode := 4, attributes := [], indices := none }) :=
  (mergeByDistancePrim_frame 1 _).1 (Or.inl rfl)

/-- Unfolding equation of `removeDegenerateFacesPrim` for a TRIANGLES
primitive whose position and index data are present. -/
lemma removeDegenerateFacesPrim_eq_of_some {q : Primitive} {minArea : ℚ}
    {qa : AttrAccessor} {qpositions : List ℚ} {qia : IndexAccessor}
    {qindices : List ℕ}
    (hQm : q.mode = 4) (hQ : q.getAttribute "POSITION" = some qa)
    (hQd : qa.data = some qpositions)
    (hQI : q.indices = some qia) (hQId : qia.data = some qindices) :
    removeDegenerateFacesPrim minArea q =
      (if ((triplesOf qindices).filter
          (keepTri minArea qpositions) |>.flatMap fun t =>
            [t.1, t.2.1, t.2.2]).length < qindices.length then
        { q with
          indices := some
            ({ ty := ArrCtor.u32
               data := some ((triplesOf qindices).filter
                  (keepTri minArea qpositions) |>.flatMap fun t =>
                    [t.1, t.2.1, t.2.2]) }) }
      else q) := by
  unfold removeDegenerateFacesPrim
  rw [if_neg (show ¬q.mode ≠ 4 by simp [hQm])]
  simp only [hQ, hQd, hQI, hQId]

/-- C10: whenever `mergeByDistancePrim` or `removeDegenerateFacesPrim`
rewrites a primitive's index buffer, the replacement is a `Uint32Array`
regardless of the original index accessor's element type, holding exactly
the remapped (resp. filtered) original index values. -/
theorem rewrittenIndices_are_u32 (tol minArea : ℚ) (p q : Primitive)
    (pa : AttrAccessor) (positions : List ℚ) (ia : IndexAccessor)
    (indices : List ℕ) (qa : AttrAccessor) (qpositions : List ℚ)
    (qia : IndexAccessor) (qindices : List ℕ)
    (hP : p.getAttribute "POSITION" = some pa) (hPd : pa.data = some positions)
    (hI : p.indices = some ia) (hId : ia.data = some indices)
    (hQ : q.getAttribute "POSITION" = some qa)
    (hQd : qa.data = some qpositions)
    (hQI : q.indices = some qia) (hQId : qia.data = some qindices)
    (hQm : q.mode = 4) :
    (mergeByDistancePrim tol p ≠ p →
      (mergeByDistancePrim tol p).indices = some
        ({ ty := ArrCtor.u32
           data := some (indices.map fun ix =>
            (buildRemap (quantKey (1 / tol) positions)
              (positions.length / 3)).remap.getD ix 0) })) ∧
    (removeDegenerateFacesPrim minArea q ≠ q →
      (removeDegenerateFacesPrim minArea q).indices = some
        ({ ty := ArrCtor.u32
           data := some ((triplesOf qindices).filter
              (keepTri minArea qpositions) |>.flatMap fun t =>
                [t.1, t.2.1, t.2.2]) })) := by
  constructor
  · intro hne
    rw [mergeByDistancePrim_eq_of_some hP hPd hI hId] at hne ⊢
    by_cases h0 : positions.length / 3 -
        (buildRemap (quantKey (1 / tol) positions)
          (positions.length / 3)).newToOld.length = 0
    · rw [if_pos h0] at hne
      exact absurd rfl hne
    · rw [if_neg h0]
  · intro hne
    rw [removeDegenerateFacesPrim_eq_of_some hQm hQ hQd hQI hQId]
      at hne ⊢
    by_cases hlt : ((triplesOf qindices).filter
        (keepTri minArea qpositions) |>.flatMap fun t =>
          [t.1, t.2.1, t.2.2]).length < qindices.length
    · rw [if_pos hlt]
    · rw [if_neg hlt] at hne
      exact absurd rfl hne

/-- Witness for `rewrittenIndices_are_u32`: a primitive with two identical
vertices and `Uint16` indices gets a merged `Uint32` index buffer, and a
primitive with one repeated-index triangle gets an empty `Uint32` index
buffer. -/
theorem rewrittenIndices_are_u32_witness :
    (mergeByDistancePrim 1 mergeExample ≠ mergeExample →
      (mergeByDistancePrim 1 mergeExample).indices = some
        ({ ty := ArrCtor.u32
           data := some ([0, 1].map fun ix =>
            (buildRemap (quantKey (1 / 1) [0, 0, 0, 0, 0, 0])
              ([(0 : ℚ), 0, 0, 0, 0, 0].length / 3)).remap.getD ix 0) })) ∧
    (removeDegenerateFacesPrim 1 degenExample ≠ degenExample →
      (removeDegenerateFacesPrim 1 degenExample).indices = some
        ({ ty := ArrCtor.u32
           data := some ((triplesOf [0, 0, 1]).filter
              (keepTri 1 [(0 : ℚ), 0, 0, 1, 0, 0]) |>.flatMap fun t =>
                [t.1, t.2.1, t.2.2]) })) :=
  rewrittenIndices_are_u32 1 1 mergeExample degenExample
    ({ ty := ArrCtor.f32, elementSize := 3, data := some [0, 0, 0, 0, 0, 0] })
    [0, 0, 0, 0, 0, 0]
    ({ ty := ArrCtor.u16, data := some [0, 1] }) [0, 1]
    ({ ty := ArrCtor.f32, elementSize := 3, data := some [0, 0, 0, 1, 0, 0] })
    [0, 0, 0, 1, 0, 0]
    ({ ty := ArrCtor.u16, data := some [0, 0, 1] }) [0, 0, 1]
    rfl rfl rfl rfl rfl rfl rfl rfl rfl

/-! ### Pipeline orchestration (C2, C3) -/

/-- The optional user-simplify phase contains at most the `simplify`
stage. -/
lemma mem_simplifyPhase {x : Xform} {sr : Option ℚ}
    (h : x ∈ (match sr with
      | some r => if 0 < r ∧ r < 1 then [Xform.simplify] else []
      | none => ([] : List Xform))) : x = Xform.simplify := by
  cases sr with
  | none => cases h
  | some r =>
      by_cases hr : 0 < r ∧ r < 1
      · simp only [hr, if_true] at h
        simpa using h
      · simp only [hr, if_false] at h
        cases h

/-- Membership facts about the skinned-document main trace. -/
lemma mainTrace_skinned {skins : ℕ} (hs : 0 < skins)
    (sr : Option ℚ) :
    Xform.mergeByDistance ∉ mainTrace skins sr ∧
    Xform.reorder ∉ mainTrace skins sr ∧
    Xform.normalizeWeights ∈ mainTrace skins sr ∧
    Xform.removeStaticTracksWithBake ∈ mainTrace skins sr ∧
    Xform.textureCompress ∈ mainTrace skins sr := by
  refine ⟨fun h => ?_, fun h => ?_, ?_, ?_, ?_⟩
  · simp [mainTrace, hs] at h
    exact absurd (mem_simplifyPhase h) (by decide)
  · simp [mainTrace, hs] at h
    exact absurd (mem_simplifyPhase h) (by decide)
  · simp [mainTrace, hs]
  · simp [mainTrace, hs]
  · simp [mainTrace, hs]

/-- Membership facts about the non-skinned main trace. -/
lemma mainTrace_static (sr : Option ℚ) :
    Xform.normalizeWeights ∉ mainTrace 0 sr ∧
    Xform.removeStaticTracksWithBake ∈ mainTrace 0 sr ∧
    Xform.textureCompress ∈ mainTrace 0 sr := by
  refine ⟨fun h => ?_, ?_, ?_⟩
  · simp [mainTrace] at h
    exact absurd (mem_simplifyPhase h) (by decide)
  · simp [mainTrace]
  · simp [mainTrace]

/-- The fallback tail never contains geometry or animation stages. -/
lemma mem_fallbackTail {x : Xform} {skins : ℕ} (h : x ∈ fallbackTail skins) :
    x = Xform.quantize ∨ x = Xform.meshopt := by
  unfold fallbackTail at h
  by_cases hs : skins > 0
  · simp only [hs, if_true] at h
    simp only [List.mem_cons, List.not_mem_nil, or_false] at h
    exact Or.inr h
  · simp only [hs, if_false] at h
    simpa using h

/-- The trace of a parsed `compress` call is the main trace, possibly
followed by the fallback tail. -/
lemma compressOk_trace (skins : ℕ) (sr : Option ℚ) (hg : Bool)
    (env : GltfpackEnv) :
    (compressOk skins sr hg env).2 = mainTrace skins sr ∨
    (compressOk skins sr hg env).2 =
      mainTrace skins sr ++ fallbackTail skins := by
  unfold compressOk
  by_cases hhg : hg
  · rcases hgp : compressWithGltfpack env with _ | m <;>
      simp [hhg, hgp]
  · simp [hhg]

/-- C2: for a document with at least one skin, `compress` never executes
`mergeByDistance` nor the GPU `reorder` stage and always executes
`normalizeWeights`; `normalizeWeights` executes exactly on skinned
documents; `removeStaticTracksWithBake` and `textureCompress` execute
regardless of the skin flag. -/
theorem compress_skin_gating (skins : ℕ) (simplifyRatio : Option ℚ)
    (hg : Bool) (env : GltfpackEnv) (res : CompressResultM)
    (tr : List Xform)
    (h : compress true skins simplifyRatio hg env = Except.ok (res, tr)) :
    (0 < skins → Xform.mergeByDistance ∉ tr ∧ Xform.reorder ∉ tr) ∧
    (Xform.normalizeWeights ∈ tr ↔ 0 < skins) ∧
    Xform.removeStaticTracksWithBake ∈ tr ∧ Xform.textureCompress ∈ tr := by
  have htr : tr = (compressOk skins simplifyRatio hg env).2 := by
    have h2 : Except.ok (ε := String) (res, tr) =
        Except.ok (compressOk skins simplifyRatio hg env) := by
      rw [← h]; rfl
    have h3 : (res, tr) = compressOk skins simplifyRatio hg env := by
      injection h2
    exact congrArg Prod.snd h3
  subst htr
  rcases compressOk_trace skins simplifyRatio hg env with heq | heq <;>
    rw [heq] <;> clear heq h
  · by_cases hs : 0 < skins
    · obtain ⟨h1, h2, h3, h4, h5⟩ := mainTrace_skinned hs simplifyRatio
      exact ⟨fun _ => ⟨h1, h2⟩, ⟨fun _ => hs, fun _ => h3⟩, h4, h5⟩
    · have hz : skins = 0 := Nat.eq_zero_of_not_pos hs
      subst hz
      obtain ⟨h1, h2, h3⟩ := mainTrace_static simplifyRatio
      exact ⟨fun hc => absurd hc hs, ⟨fun hm => absurd hm h1,
        fun hc => absurd hc hs⟩, h2, h3⟩
  · by_cases hs : 0 < skins
    · obtain ⟨h1, h2, h3, h4, h5⟩ := mainTrace_skinned hs simplifyRatio
      refine ⟨fun _ => ⟨?_, ?_⟩, ⟨fun _ => hs, fun _ => ?_⟩, ?_, ?_⟩
      · intro hmem
        rcases List.mem_append.mp hmem with hm | hm
        · exact h1 hm
        · rcases mem_fallbackTail hm with h | h <;> cases h
      · intro hmem
        rcases List.mem_append.mp hmem with hm | hm
        · exact h2 hm
        · rcases mem_fallbackTail hm with h | h <;> cases h
      · exact List.mem_append.mpr (Or.inl h3)
      · exact List.mem_append.mpr (Or.inl h4)
      · exact List.mem_append.mpr (Or.inl h5)
    · have hz : skins = 0 := Nat.eq_zero_of_not_pos hs
      subst hz
      obtain ⟨h1, h2, h3⟩ := mainTrace_static simplifyRatio
      refine ⟨fun hc => absurd hc hs, ⟨fun hm => ?_, fun hc => absurd hc hs⟩,
        List.mem_append.mpr (Or.inl h2), List.mem_append.mpr (Or.inl h3)⟩
      rcases List.mem_append.mp hm with hm' | hm'
      · exact absurd hm' h1
      · rcases mem_fallbackTail hm' with h | h <;> cases h

/-- Witness for `compress_skin_gating` at a skinned one-skin document with
a found gltfpack binary that succeeds. -/
theorem compress_skin_gating_witness :
    (0 < 1 → Xform.mergeByDistance ∉ mainTrace 1 none ∧
      Xform.reorder ∉ mainTrace 1 none) ∧
    (Xform.normalizeWeights ∈ mainTrace 1 none ↔ 0 < 1) ∧
    Xform.removeStaticTracksWithBake ∈ mainTrace 1 none ∧
    Xform.textureCompress ∈ mainTrace 1 none :=
  compress_skin_gating 1 none true ⟨false, 0, false⟩ ⟨"gltfpack"⟩
    (mainTrace 1 none) rfl

/-- C3 counterexample: with a gltfpack binary that exits with code 1,
`compress` recovers (no error) but reports method `"meshopt"`, which is
neither of the claimed contract strings `"external"` and `"fallback"`. -/
theorem compress_method_contract_counterexample :
    (compress true 0 none true ⟨false, 1, false⟩).toOption.map
        (fun rt => rt.1.method) = some "meshopt" ∧
      "meshopt" ≠ "fallback" ∧ "meshopt" ≠ "external" :=
  ⟨rfl, by decide, by decide⟩

/-- C3 (amended): whenever the external compressor step fails — `spawn`
throws (missing binary), non-zero exit code (including after a timeout
kill), or an unreadable output — `compress` on a parseable input does not
throw and returns the in-process fallback result with method
`"meshopt"`. -/
theorem compress_falls_back_on_gltfpack_failure (skins : ℕ)
    (sr : Option ℚ) (env : GltfpackEnv)
    (hfail : env.spawnFails = true ∨ env.exitCode ≠ 0 ∨
      env.readFails = true) :
    (compress true skins sr true env).toOption.map
      (fun rt => rt.1.method) = some "meshopt" := by
  have hnone : compressWithGltfpack env = none := by
    unfold compressWithGltfpack
    rcases hfail with hf | hf | hf
    · simp [hf]
    · simp [hf]
    · by_cases hsf : env.spawnFails <;> by_cases hec : env.exitCode ≠ 0 <;>
        simp [hsf, hec, hf]
  show (Except.ok (compressOk skins sr true env)
      (ε := String)).toOption.map (fun rt => rt.1.method) = some "meshopt"
  unfold compressOk
  rw [hnone]
  rfl

/-- Witness for `compress_falls_back_on_gltfpack_failure` at exit code 1. -/
theorem compress_falls_back_witness :
    (compress true 0 none true ⟨false, 1, false⟩).toOption.map
      (fun rt => rt.1.method) = some "meshopt" :=
  compress_falls_back_on_gltfpack_failure 0 none ⟨false, 1, false⟩
    (Or.inr (Or.inl (by decide)))

/-! ### Weight normalization (C6) -/

/-- Dividing a list pointwise divides its sum. -/
lemma sum_map_div (l : List ℚ) (s : ℚ) : (l.map (· / s)).sum = l.sum / s := by
  induction l with
  | nil => simp
  | cons a l ih => simp [ih, add_div]

/-- `normalizeChunk` preserves the group's length. -/
lemma normalizeChunk_length (chunk : List ℚ) :
    (normalizeChunk chunk).length = chunk.length := by
  unfold normalizeChunk
  by_cases h : needsNormalize chunk.sum <;> simp [h]

/-- `normalizeChunks` preserves the array's length. -/
lemma normalizeChunks_length (es n : ℕ) (arr : List ℚ) :
    (normalizeChunks es n arr).length = arr.length := by
  induction n generalizing arr with
  | zero => rfl
  | succ n ih =>
      simp only [normalizeChunks, List.length_append, normalizeChunk_length,
        List.length_take, ih, List.length_drop]
      omega

/-- A normalized group's sum is exactly `1`. -/
lemma normalizeChunk_sum_of_fires (chunk : List ℚ)
    (h : needsNormalize chunk.sum = true) : (normalizeChunk chunk).sum = 1 := by
  have hpos : 0 < chunk.sum := by
    have := h
    unfold needsNormalize at this
    simpa using (Bool.and_eq_true _ _ |>.mp this).1
  rw [normalizeChunk, if_pos h, sum_map_div]
  exact div_self (ne_of_gt hpos)

/-- A group the guard skips is untouched. -/
lemma normalizeChunk_of_skip (chunk : List ℚ)
    (h : needsNormalize chunk.sum = false) : normalizeChunk chunk = chunk := by
  rw [normalizeChunk, if_neg (by simp [h])]

/-- After normalization, a group with positive sum sums to `1` within
`1e-6`. -/
lemma normalizeChunk_sum_spec (chunk : List ℚ)
    (hpos : 0 < (normalizeChunk chunk).sum) :
    |(normalizeChunk chunk).sum - 1| ≤ 1 / 1000000 := by
  by_cases h : needsNormalize chunk.sum
  · rw [normalizeChunk_sum_of_fires chunk h]
    norm_num
  · rw [normalizeChunk_of_skip chunk (by simpa using h)] at hpos ⊢
    unfold needsNormalize at h
    simp only [Bool.and_eq_true, decide_eq_true_eq, not_and] at h
    have := h (by simpa using hpos)
    simpa using this

/-- `normalizeChunk` is idempotent. -/
lemma normalizeChunk_idem (chunk : List ℚ) :
    normalizeChunk (normalizeChunk chunk) = normalizeChunk chunk := by
  by_cases h : needsNormalize chunk.sum
  · apply normalizeChunk_of_skip
    rw [normalizeChunk_sum_of_fires chunk h]
    unfold needsNormalize
    norm_num
  · rw [normalizeChunk_of_skip chunk (by simpa using h)]
    exact normalizeChunk_of_skip chunk (by simpa using h)

/-- The `i`-th group of the normalized array is the normalization of the
`i`-th original group. -/
lemma vertexChunk_normalizeChunks (es n : ℕ) (arr : List ℚ) (i : ℕ)
    (_hes : 0 < es) (hi : i < n) (hlen : arr.length = n * es) :
    vertexChunk es (normalizeChunks es n arr) i =
      normalizeChunk (vertexChunk es arr i) := by
  induction n generalizing arr i with
  | zero => omega
  | succ n ih =>
      have hmul : (n + 1) * es = n * es + es := by ring
      have hA : (normalizeChunk (arr.take es)).length = es := by
        rw [normalizeChunk_length, List.length_take, hlen, hmul]
        omega
      cases i with
      | zero =>
          show ((normalizeChunk (arr.take es) ++
            normalizeChunks es n (arr.drop es)).drop (0 * es)).take es = _
          rw [Nat.zero_mul, List.drop_zero, List.take_left' hA,
            vertexChunk, Nat.zero_mul, List.drop_zero]
      | succ j =>
          show ((normalizeChunk (arr.take es) ++
            normalizeChunks es n (arr.drop es)).drop ((j + 1) * es)).take es
              = _
          have hsplit : (j + 1) * es = es + j * es := by ring
          rw [hsplit, ← List.drop_drop, List.drop_left' hA]
          have harr : (arr.drop es).length = n * es := by
            rw [List.length_drop, hlen, hmul]
            omega
          have hrec := ih (arr.drop es) j (by omega) harr
          rw [vertexChunk] at hrec
          rw [hrec]
          have hvc : vertexChunk es arr (j + 1) =
              vertexChunk es (arr.drop es) j := by
            unfold vertexChunk
            rw [hsplit, ← List.drop_drop]
          rw [hvc]

/-- `normalizeChunks` is idempotent on a well-formed array. -/
lemma normalizeChunks_idem (es n : ℕ) (arr : List ℚ)
    (hlen : arr.length = n * es) :
    normalizeChunks es n (normalizeChunks es n arr) =
      normalizeChunks es n arr := by
  induction n generalizing arr with
  | zero => rfl
  | succ n ih =>
      have hmul : (n + 1) * es = n * es + es := by ring
      have hA : (normalizeChunk (arr.take es)).length = es := by
        rw [normalizeChunk_length, List.length_take, hlen, hmul]
        omega
      show normalizeChunks es (n + 1)
          (normalizeChunk (arr.take es) ++
            normalizeChunks es n (arr.drop es)) = _
      rw [normalizeChunks, List.take_left' hA, List.drop_left' hA,
        normalizeChunk_idem]
      congr 1
      exact ih (arr.drop es) (by rw [List.length_drop, hlen, hmul]; omega)

/-- `find?` by key commutes with a key-preserving map. -/
lemma find?_key_map (l : List (String × AttrAccessor))
    (g : String × AttrAccessor → String × AttrAccessor)
    (hg : ∀ sa, (g sa).1 = sa.1) (s : String) :
    (l.map g).find? (fun sa => sa.1 = s) =
      (l.find? fun sa => sa.1 = s).map g := by
  induction l with
  | nil => rfl
  | cons a l ih =>
      by_cases h : a.1 = s
      · rw [List.map_cons, List.find?_cons_of_pos, List.find?_cons_of_pos]
        · rfl
        · simpa using h
        · simpa [hg a] using h
      · rw [List.map_cons, List.find?_cons_of_neg, List.find?_cons_of_neg, ih]
        · simpa using h
        · simpa [hg a] using h

/-- `normalizeWeightsPrim` rewrites the `WEIGHTS_0` accessor with the
normalized array. -/
lemma normalizeWeightsPrim_getAttr {p : Primitive} {w0 : AttrAccessor}
    {arr : List ℚ}
    (hW : p.getAttribute "WEIGHTS_0" = some w0) (hWd : w0.data = some arr) :
    (normalizeWeightsPrim p).getAttribute "WEIGHTS_0" = some
      ({ w0 with data := some (normalizeChunks w0.elementSize
        (arr.length / w0.elementSize) arr) }) := by
  have hbody : normalizeWeightsPrim p =
      { p with attributes := p.attributes.map fun sa =>
          if sa.1 = "WEIGHTS_0" then
            (sa.1,
              { sa.2 with
                data := some (normalizeChunks w0.elementSize
                  (arr.length / w0.elementSize) arr) })
          else sa } := by
    simp only [normalizeWeightsPrim, hW, hWd]
  obtain ⟨sa, hfind, hsa⟩ : ∃ sa, p.attributes.find?
      (fun sa => sa.1 = "WEIGHTS_0") = some sa ∧ sa.2 = w0 := by
    unfold Primitive.getAttribute at hW
    rcases hf : p.attributes.find? (fun sa => sa.1 = "WEIGHTS_0") with _ | sa
    · rw [hf] at hW
      simp at hW
    · rw [hf] at hW
      exact ⟨sa, hf, by simpa using hW⟩
  have hkey : sa.1 = "WEIGHTS_0" := by
    have := List.find?_some hfind
    simpa using this
  rw [hbody]
  unfold Primitive.getAttribute
  rw [find?_key_map _ _ (fun sa => by by_cases h : sa.1 = "WEIGHTS_0" <;>
    simp [h]) "WEIGHTS_0", hfind]
  simp [hkey, hsa]

/-- C6: after `normalizeWeightsPrim`, every vertex group of the `WEIGHTS_0`
attribute with positive sum sums to `1` within `1e-6`; all-zero groups are
untouched; and the operation is idempotent. -/
theorem normalizeWeightsPrim_spec (p : Primitive) (w0 : AttrAccessor)
    (arr : List ℚ)
    (hW : p.getAttribute "WEIGHTS_0" = some w0) (hWd : w0.data = some arr)
    (hes : 0 < w0.elementSize) (hdvd : w0.elementSize ∣ arr.length) :
    ((normalizeWeightsPrim p).getAttribute "WEIGHTS_0" = some
      ({ w0 with data := some (normalizeChunks w0.elementSize
        (arr.length / w0.elementSize) arr) })) ∧
    (∀ i < arr.length / w0.elementSize,
      0 < (vertexChunk w0.elementSize (normalizeChunks w0.elementSize
        (arr.length / w0.elementSize) arr) i).sum →
      |(vertexChunk w0.elementSize (normalizeChunks w0.elementSize
        (arr.length / w0.elementSize) arr) i).sum - 1| ≤ 1 / 1000000) ∧
    (∀ i < arr.length / w0.elementSize,
      (∀ x ∈ vertexChunk w0.elementSize arr i, x = 0) →
      vertexChunk w0.elementSize (normalizeChunks w0.elementSize
        (arr.length / w0.elementSize) arr) i =
        vertexChunk w0.elementSize arr i) ∧
    normalizeWeightsPrim (normalizeWeightsPrim p) = normalizeWeightsPrim p := by
  have hlen : arr.length = (arr.length / w0.elementSize) * w0.elementSize :=
    (Nat.div_mul_cancel hdvd).symm
  refine ⟨normalizeWeightsPrim_getAttr hW hWd, fun i hi hpos => ?_,
    fun i hi hzero => ?_, ?_⟩
  · rw [vertexChunk_normalizeChunks _ _ arr i hes hi hlen] at hpos ⊢
    exact normalizeChunk_sum_spec _ hpos
  · rw [vertexChunk_normalizeChunks _ _ arr i hes hi hlen]
    apply normalizeChunk_of_skip
    have hsum : (vertexChunk w0.elementSize arr i).sum = 0 :=
      List.sum_eq_zero hzero
    rw [hsum]
    unfold needsNormalize
    norm_num
  · -- Idempotence: the second pass finds the updated accessor whose data
    -- is already a fixed point of `normalizeChunks`.
    have h1 := normalizeWeightsPrim_getAttr hW hWd
    have hlen2 : (normalizeChunks w0.elementSize
        (arr.length / w0.elementSize) arr).length = arr.length :=
      normalizeChunks_length w0.elementSize (arr.length / w0.elementSize) arr
    have hidem := normalizeChunks_idem w0.elementSize
      (arr.length / w0.elementSize) arr hlen
    have heq : (normalizeChunks w0.elementSize
        (arr.length / w0.elementSize) arr).length / w0.elementSize =
        arr.length / w0.elementSize := by
      rw [hlen2]
    have hbody1 : normalizeWeightsPrim p =
        { p with attributes := p.attributes.map fun sa =>
            if sa.1 = "WEIGHTS_0" then
              (sa.1,
                { sa.2 with data := some (normalizeChunks w0.elementSize
                  (arr.length / w0.elementSize) arr) })
            else sa } := by
      simp only [normalizeWeightsPrim, hW, hWd]
    generalize hp' : normalizeWeightsPrim p = p' at h1 hbody1 ⊢
    have hstep : normalizeWeightsPrim p' =
        { p' with attributes := p'.attributes.map fun sa =>
            if sa.1 = "WEIGHTS_0" then
              (sa.1,
                { sa.2 with data := some (normalizeChunks w0.elementSize
                  (arr.length / w0.elementSize) arr) })
            else sa } := by
      simp only [normalizeWeightsPrim, h1, heq, hidem]
    rw [hstep, hbody1]
    simp only [List.map_map]
    congr 1
    apply List.map_congr_left
    intro sa _
    simp only [Function.comp_apply]
    by_cases h : sa.1 = "WEIGHTS_0" <;> simp [h]

/-- Witness for `normalizeWeightsPrim_spec` on `weightsExample`: the
normalized vertex sums to `1` within `1e-6`, and a second application is a
no-op. -/
theorem normalizeWeightsPrim_spec_witness :
    |(vertexChunk 2 (normalizeChunks 2 1 [(2 : ℚ), 2]) 0).sum - 1| ≤
        1 / 1000000 ∧
    normalizeWeightsPrim (normalizeWeightsPrim weightsExample) =
      normalizeWeightsPrim weightsExample :=
  ⟨(normalizeWeightsPrim_spec weightsExample
      ({ ty := ArrCtor.f32, elementSize := 2, data := some [2, 2] })
      [2, 2] rfl rfl (by decide) (by decide)).2.1 0 (by decide)
      (by norm_num [vertexChunk, normalizeChunks, normalizeChunk,
        needsNormalize]),
    (normalizeWeightsPrim_spec weightsExample
      ({ ty := ArrCtor.f32, elementSize := 2, data := some [2, 2] })
      [2, 2] rfl rfl (by decide) (by decide)).2.2.2⟩

/-! ### Degenerate-face removal (C7) -/

/-- Flattening triples and re-grouping them is the identity. -/
lemma triplesOf_flatTriples (l : List (ℕ × ℕ × ℕ)) :
    triplesOf (l.flatMap fun t => [t.1, t.2.1, t.2.2]) = l := by
  induction l with
  | nil => rfl
  | cons t l ih =>
      show triplesOf (t.1 :: t.2.1 :: t.2.2 ::
        (l.flatMap fun t => [t.1, t.2.1, t.2.2])) = t :: l
      simp only [triplesOf, ih]

/-- Flattened triples have length `3 ×` the triple count. -/
lemma length_flatTriples (l : List (ℕ × ℕ × ℕ)) :
    (l.flatMap fun t => [t.1, t.2.1, t.2.2]).length = 3 * l.length := by
  induction l with
  | nil => rfl
  | cons t l ih =>
      simp only [List.flatMap_cons, List.length_append, ih, List.length_cons,
        List.length_nil]
      omega

/-- On an index list of length divisible by three, grouping into triples
accounts for every index. -/
lemma length_triplesOf_mul :
    ∀ l : List ℕ, 3 ∣ l.length → 3 * (triplesOf l).length = l.length
  | [], _ => by simp [triplesOf]
  | [_], h => by
      simp only [List.length_cons, List.length_nil] at h
      omega
  | [_, _], h => by
      simp only [List.length_cons, List.length_nil] at h
      omega
  | _ :: _ :: _ :: rest, h => by
      have h' : 3 ∣ rest.length := by
        simp only [List.length_cons] at h
        omega
      have := length_triplesOf_mul rest h'
      simp only [triplesOf, List.length_cons]
      omega

/-- The `ℚ`-level area test encodes the source's
`0.5 * Math.sqrt(S) < minArea` exactly, for the nonnegative squared cross
products it is applied to. -/
lemma areaLtB_iff_real (minArea S : ℚ) (hS : 0 ≤ S) :
    areaLtB minArea S = true ↔
      (1 / 2 : ℝ) * Real.sqrt (S : ℝ) < (minArea : ℝ) := by
  unfold areaLtB
  rw [Bool.and_eq_true, decide_eq_true_eq, decide_eq_true_eq]
  constructor
  · rintro ⟨hm, hlt⟩
    rcases lt_or_eq_of_le hm with hm' | hm'
    · have hm'' : (0 : ℝ) < (minArea : ℝ) := by exact_mod_cast hm'
      have h2m : (0 : ℝ) < 2 * (minArea : ℝ) := by linarith
      have hsq : Real.sqrt (S : ℝ) < 2 * (minArea : ℝ) := by
        rw [Real.sqrt_lt' h2m]
        have : (S : ℝ) < 4 * (minArea : ℝ) ^ 2 := by exact_mod_cast hlt
        nlinarith
      linarith
    · exfalso
      rw [← hm'] at hlt
      norm_num at hlt
      exact absurd hlt (not_lt.mpr hS)
  · intro h
    have hsqrt : (0 : ℝ) ≤ Real.sqrt (S : ℝ) := Real.sqrt_nonneg _
    have hm : (0 : ℝ) < (minArea : ℝ) := by linarith
    have hm' : (0 : ℚ) < minArea := by exact_mod_cast hm
    refine ⟨le_of_lt hm', ?_⟩
    have h2m : (0 : ℝ) < 2 * (minArea : ℝ) := by linarith
    have hs : Real.sqrt (S : ℝ) < 2 * (minArea : ℝ) := by linarith
    rw [Real.sqrt_lt' h2m] at hs
    have : (S : ℝ) < 4 * (minArea : ℝ) ^ 2 := by nlinarith
    exact_mod_cast this

/-- A sum of three squares is nonnegative. -/
lemma sq3_nonneg (a b c : ℚ) : 0 ≤ a * a + b * b + c * c := by
  nlinarith [mul_self_nonneg a, mul_self_nonneg b, mul_self_nonneg c]

/-- The squared cross product is nonnegative. -/
lemma crossSq_nonneg (positions : List ℚ) (i0 i1 i2 : ℕ) :
    0 ≤ crossSq positions i0 i1 i2 :=
  sq3_nonneg _ _ _

/-- What surviving the keep test means, in real-number terms. -/
lemma keepTri_spec {minArea : ℚ} {positions : List ℚ} {t : ℕ × ℕ × ℕ}
    (h : keepTri minArea positions t = true) :
    (t.1 ≠ t.2.1 ∧ t.2.1 ≠ t.2.2 ∧ t.1 ≠ t.2.2) ∧
      ¬((1 / 2 : ℝ) * Real.sqrt ((crossSq positions t.1 t.2.1 t.2.2 : ℚ) : ℝ)
        < ((minArea : ℚ) : ℝ)) := by
  unfold keepTri at h
  rw [Bool.and_eq_true, Bool.not_eq_true', Bool.not_eq_true'] at h
  obtain ⟨hdist, harea⟩ := h
  simp only [Bool.or_eq_false_iff, decide_eq_false_iff_not] at hdist
  refine ⟨⟨hdist.1.1, hdist.1.2, hdist.2⟩, ?_⟩
  intro hlt
  have := (areaLtB_iff_real minArea (crossSq positions t.1 t.2.1 t.2.2)
    (crossSq_nonneg positions t.1 t.2.1 t.2.2)).mpr hlt
  rw [harea] at this
  cases this

/-- C7: after `removeDegenerateFacesPrim` on a TRIANGLES primitive, the
vertex attribute buffers are untouched, and no surviving index triple has
two equal indices or triangle area (half the magnitude of the cross
product) below `minArea`. -/
theorem removeDegenerateFacesPrim_spec (minArea : ℚ) (q : Primitive)
    (qa : AttrAccessor) (positions : List ℚ) (qia : IndexAccessor)
    (indices : List ℕ)
    (hm : q.mode = 4) (hQ : q.getAttribute "POSITION" = some qa)
    (hQd : qa.data = some positions) (hQI : q.indices = some qia)
    (hQId : qia.data = some indices) (h3 : 3 ∣ indices.length) :
    (removeDegenerateFacesPrim minArea q).attributes = q.attributes ∧
    ∃ qia' indices',
      (removeDegenerateFacesPrim minArea q).indices = some qia' ∧
      qia'.data = some indices' ∧
      ∀ t ∈ triplesOf indices',
        (t.1 ≠ t.2.1 ∧ t.2.1 ≠ t.2.2 ∧ t.1 ≠ t.2.2) ∧
        ¬((1 / 2 : ℝ) * Real.sqrt
            ((crossSq positions t.1 t.2.1 t.2.2 : ℚ) : ℝ) <
          ((minArea : ℚ) : ℝ)) := by
  rw [removeDegenerateFacesPrim_eq_of_some hm hQ hQd hQI hQId]
  by_cases hlt : ((triplesOf indices).filter
      (keepTri minArea positions) |>.flatMap fun t =>
        [t.1, t.2.1, t.2.2]).length < indices.length
  · rw [if_pos hlt]
    refine ⟨rfl, _, _, rfl, rfl, ?_⟩
    intro t ht
    rw [triplesOf_flatTriples] at ht
    exact keepTri_spec (List.of_mem_filter ht)
  · rw [if_neg hlt]
    refine ⟨rfl, qia, indices, hQI, hQId, ?_⟩
    intro t ht
    apply keepTri_spec
    have hall : ∀ t ∈ triplesOf indices, keepTri minArea positions t := by
      rw [← List.filter_length_eq_length]
      have hle := List.length_filter_le (keepTri minArea positions)
        (triplesOf indices)
      have hflat := length_flatTriples ((triplesOf indices).filter
        (keepTri minArea positions))
      have htr := length_triplesOf_mul indices h3
      omega
    exact hall t ht

/-- Witness for `removeDegenerateFacesPrim_spec` on `degenExample`. -/
theorem removeDegenerateFacesPrim_spec_witness :
    (removeDegenerateFacesPrim 1 degenExample).attributes =
      degenExample.attributes :=
  (removeDegenerateFacesPrim_spec 1 degenExample
    ({ ty := ArrCtor.f32, elementSize := 3, data := some [0, 0, 0, 1, 0, 0] })
    [0, 0, 0, 1, 0, 0]
    ({ ty := ArrCtor.u16, data := some [0, 0, 1] }) [0, 0, 1]
    rfl rfl rfl rfl rfl (by decide)).1

/-! ### The spatial-hash build loop (C4, C5) -/

/-- One more vertex extends the build fold by one step. -/
lemma buildRemap_succ (qk : ℕ → ℤ × ℤ × ℤ) (n : ℕ) :
    buildRemap qk (n + 1) = buildStep qk (buildRemap qk n) n := by
  rw [buildRemap, List.range_succ, List.foldl_append]
  rfl

/-- The invariant holds of the empty starting state. -/
lemma buildInv_init (qk : ℕ → ℤ × ℤ × ℤ) :
    BuildInv qk ⟨[], [], []⟩ := by
  refine ⟨?_, ?_, ?_, ?_, ?_⟩ <;> simp

/-- Let-free unfolding of one loop iteration. -/
lemma buildStep_eq (qk : ℕ → ℤ × ℤ × ℤ) (st : BuildState) (i : ℕ) :
    buildStep qk st i =
      match st.vertexMap.find? (fun e => e.1 = qk i) with
      | some e => { st with remap := st.remap ++ [e.2] }
      | none =>
          { vertexMap := (qk i, st.newToOld.length) :: st.vertexMap
            remap := st.remap ++ [st.newToOld.length]
            newToOld := st.newToOld ++ [i] } := rfl

/-- One loop iteration preserves the invariant. -/
lemma buildStep_inv (qk : ℕ → ℤ × ℤ × ℤ) (st : BuildState) (i : ℕ)
    (h : BuildInv qk st) : BuildInv qk (buildStep qk st i) := by
  rw [buildStep_eq]
  cases hf : st.vertexMap.find? (fun e => e.1 = qk i) with
  | none =>
    show BuildInv qk ⟨(qk i, st.newToOld.length) :: st.vertexMap,
      st.remap ++ [st.newToOld.length], st.newToOld ++ [i]⟩
    -- new canonical vertex: key not present in the map
    have hfresh : ∀ kv ∈ st.vertexMap, kv.1 ≠ qk i := by
      intro kv hkv
      have := List.find?_eq_none.mp hf kv hkv
      simpa using this
    have hgetD_lt : ∀ j < st.newToOld.length,
        (st.newToOld ++ [i]).getD j 0 = st.newToOld.getD j 0 := by
      intro j hj
      rw [List.getD_eq_getElem?_getD, List.getElem?_append_left hj,
        ← List.getD_eq_getElem?_getD]
    have hgetD_last : (st.newToOld ++ [i]).getD st.newToOld.length 0 = i := by
      rw [List.getD_eq_getElem?_getD,
        List.getElem?_append_right (Nat.le_refl _)]
      simp
    refine ⟨?_, ?_, ?_, ?_, ?_⟩
    · intro kv hkv
      rcases List.mem_cons.mp hkv with h1 | h1
      · subst h1
        simp [List.length_append]
      · have := h.map_lt kv h1
        simp only [List.length_append, List.length_cons, List.length_nil]
        omega
    · intro kv hkv
      rcases List.mem_cons.mp hkv with h1 | h1
      · subst h1
        simp only [hgetD_last]
      · rw [hgetD_lt kv.2 (h.map_lt kv h1)]
        exact h.map_key kv h1
    · intro j hj
      simp only [List.length_append, List.length_cons, List.length_nil] at hj
      rcases Nat.lt_or_ge j st.newToOld.length with hj' | hj'
      · rw [hgetD_lt j hj']
        exact List.mem_cons_of_mem _ (h.map_complete j hj')
      · have hjeq : j = st.newToOld.length := by omega
        subst hjeq
        rw [hgetD_last]
        exact List.mem_cons_self _ _
    · intro v hv
      rcases List.mem_append.mp hv with h1 | h1
      · have := h.remap_lt v h1
        simp only [List.length_append, List.length_cons, List.length_nil]
        omega
      · simp only [List.mem_cons, List.not_mem_nil, or_false] at h1
        subst h1
        simp [List.length_append]
    · rw [List.pairwise_append]
      refine ⟨h.keys_inj, List.pairwise_singleton _ _, ?_⟩
      intro a ha b hb
      simp only [List.mem_cons, List.not_mem_nil, or_false] at hb
      subst hb
      intro heq
      obtain ⟨j, hj, hja⟩ := List.mem_iff_getElem.mp ha
      have hjd : st.newToOld.getD j 0 = a := by
        rw [List.getD_eq_getElem?_getD, List.getElem?_eq_getElem hj]
        simpa using hja
      have hmem := h.map_complete j hj
      rw [hjd, heq] at hmem
      exact hfresh _ hmem rfl
  | some e =>
    -- seen before: only `remap` grows, by an in-range index
    show BuildInv qk ⟨st.vertexMap, st.remap ++ [e.2], st.newToOld⟩
    have he := List.mem_of_find?_eq_some hf
    refine ⟨h.map_lt, h.map_key, h.map_complete, ?_, h.keys_inj⟩
    intro v hv
    rcases List.mem_append.mp hv with h1 | h1
    · exact h.remap_lt v h1
    · simp only [List.mem_cons, List.not_mem_nil, or_false] at h1
      subst h1
      exact h.map_lt e he

/-- The invariant holds after the whole build loop. -/
lemma buildRemap_inv (qk : ℕ → ℤ × ℤ × ℤ) (n : ℕ) :
    BuildInv qk (buildRemap qk n) := by
  induction n with
  | zero => exact buildInv_init qk
  | succ n ih =>
      rw [buildRemap_succ]
      exact buildStep_inv qk _ n ih

/-- The canonical vertex list never outgrows the vertex count. -/
lemma buildRemap_newToOld_le (qk : ℕ → ℤ × ℤ × ℤ) (n : ℕ) :
    (buildRemap qk n).newToOld.length ≤ n := by
  induction n with
  | zero => exact Nat.le_refl 0
  | succ n ih =>
      rw [buildRemap_succ, buildStep_eq]
      cases (buildRemap qk n).vertexMap.find? (fun e => e.1 = qk n) with
      | none =>
        show ((buildRemap qk n).newToOld ++ [n]).length ≤ n + 1
        simp only [List.length_append, List.length_cons, List.length_nil]
        omega
      | some e => exact Nat.le_succ_of_le ih

/-- The remap table has one slot per vertex. -/
lemma buildRemap_remap_length (qk : ℕ → ℤ × ℤ × ℤ) (n : ℕ) :
    (buildRemap qk n).remap.length = n := by
  induction n with
  | zero => rfl
  | succ n ih =>
      rw [buildRemap_succ, buildStep_eq]
      cases (buildRemap qk n).vertexMap.find? (fun e => e.1 = qk n) with
      | none =>
        show ((buildRemap qk n).remap ++
          [(buildRemap qk n).newToOld.length]).length = n + 1
        simp [ih]
      | some e =>
        show ((buildRemap qk n).remap ++ [e.2]).length = n + 1
        simp [ih]

/-- On vertices with pairwise distinct quantized keys, the build loop
registers every vertex as canonical: `newToOld` is the identity. -/
lemma buildRemap_of_inj (qk : ℕ → ℤ × ℤ × ℤ) (n : ℕ)
    (hinj : ∀ i j, i < j → j < n → qk i ≠ qk j) :
    (buildRemap qk n).newToOld = List.range n := by
  induction n with
  | zero => rfl
  | succ n ih =>
      have hIH := ih fun i j hij hj => hinj i j hij (Nat.lt_succ_of_lt hj)
      rw [buildRemap_succ]
      have hf : (buildRemap qk n).vertexMap.find? (fun e => e.1 = qk n)
          = none := by
        rw [List.find?_eq_none]
        intro kv hkv
        have hkey := (buildRemap_inv qk n).map_key kv hkv
        have hlt := (buildRemap_inv qk n).map_lt kv hkv
        rw [hIH] at hkey hlt
        simp only [List.length_range] at hlt
        have hgd : (List.range n).getD kv.2 0 = kv.2 := by
          rw [List.getD_eq_getElem?_getD, List.getElem?_range hlt]
          rfl
        rw [hgd] at hkey
        simp only [decide_eq_true_eq]
        intro heq
        exact hinj kv.2 n hlt (Nat.lt_succ_self n) (hkey ▸ heq)
      rw [buildStep_eq, hf]
      show (buildRemap qk n).newToOld ++ [n] = List.range (n + 1)
      rw [hIH, List.range_succ]

/-- Length of a flattening of constant-size chunks. -/
lemma flatten_map_length (L : ℕ) (g : ℕ → List ℚ)
    (hg : ∀ a, (g a).length = L) (l : List ℕ) :
    ((l.map g).flatten).length = l.length * L := by
  induction l with
  | nil => simp
  | cons a l ih =>
      simp only [List.map_cons, List.flatten_cons, List.length_append, hg,
        ih, List.length_cons]
      ring

/-- Reading the flattening of constant-size chunks at `i*L + j` reads chunk
`i` at offset `j`. -/
lemma flatten_map_getD (L : ℕ) (g : ℕ → List ℚ)
    (hg : ∀ a, (g a).length = L) (l : List ℕ) (i j : ℕ)
    (hi : i < l.length) (hj : j < L) :
    ((l.map g).flatten).getD (i * L + j) 0 = (g (l.getD i 0)).getD j 0 := by
  induction l generalizing i with
  | nil => cases hi
  | cons a l ih =>
      cases i with
      | zero =>
          show (g a ++ (l.map g).flatten).getD (0 * L + j) 0 = _
          rw [Nat.zero_mul, Nat.zero_add, List.getD_eq_getElem?_getD,
            List.getElem?_append_left (by rw [hg]; exact hj),
            ← List.getD_eq_getElem?_getD]
          rfl
      | succ i' =>
          show (g a ++ (l.map g).flatten).getD ((i' + 1) * L + j) 0 = _
          have hidx : (i' + 1) * L + j = (g a).length + (i' * L + j) := by
            rw [hg]
            ring
          rw [hidx, List.getD_eq_getElem?_getD,
            List.getElem?_append_right (Nat.le_add_right _ _),
            Nat.add_sub_cancel_left, ← List.getD_eq_getElem?_getD]
          exact ih i' (Nat.lt_of_succ_lt_succ hi)

/-- Reading a mapped range at an in-bounds offset. -/
lemma range_map_getD (L : ℕ) (f : ℕ → ℚ) (j : ℕ) (hj : j < L) :
    ((List.range L).map f).getD j 0 = f j := by
  rw [List.getD_eq_getElem?_getD, List.getElem?_map, List.getElem?_range hj]
  rfl

/-- The quantized key of gathered vertex `i` is the key of the original
vertex `newToOld[i]` — positions are copied verbatim. -/
lemma quantKey_compact (precision : ℚ) (arr : List ℚ) (newToOld : List ℕ)
    (i : ℕ) (hi : i < newToOld.length) :
    quantKey precision ((newToOld.map fun o =>
      (List.range 3).map fun j => arr.getD (o * 3 + j) 0).flatten) i =
      quantKey precision arr (newToOld.getD i 0) := by
  have hg : ∀ o : ℕ,
      ((List.range 3).map fun j => arr.getD (o * 3 + j) 0).length = 3 := by
    intro o
    simp
  have h0 := flatten_map_getD 3 _ hg newToOld i 0 hi (by omega)
  have h1 := flatten_map_getD 3 _ hg newToOld i 1 hi (by omega)
  have h2 := flatten_map_getD 3 _ hg newToOld i 2 hi (by omega)
  rw [Nat.add_zero] at h0
  unfold quantKey
  rw [h0, h1, h2, range_map_getD 3 _ 0 (by omega),
    range_map_getD 3 _ 1 (by omega), range_map_getD 3 _ 2 (by omega),
    Nat.add_zero]

/-- A primitive either has position and index data, or `mergeByDistancePrim`
leaves it unchanged. -/
lemma mergeByDistancePrim_present_or_eq (tol : ℚ) (p : Primitive) :
    (∃ a arr ia iarr, p.getAttribute "POSITION" = some a ∧
      a.data = some arr ∧ p.indices = some ia ∧ ia.data = some iarr) ∨
    mergeByDistancePrim tol p = p := by
  rcases hP : p.getAttribute "POSITION" with _ | a
  · exact Or.inr (by simp only [mergeByDistancePrim, hP])
  rcases hI : p.indices with _ | ia
  · exact Or.inr (by simp only [mergeByDistancePrim, hP, hI])
  rcases hPd : a.data with _ | arr
  · exact Or.inr (by simp only [mergeByDistancePrim, hP, hI, hPd])
  rcases hId : ia.data with _ | iarr
  · exact Or.inr (by simp only [mergeByDistancePrim, hP, hI, hPd, hId])
  exact Or.inl ⟨a, arr, ia, iarr, rfl, hPd, rfl, hId⟩

/-- `getAttribute` on any primitive whose attribute list is a mapped copy
of `p`'s. -/
lemma getAttribute_map_val {q p : Primitive} {s : String} {a : AttrAccessor}
    (g : AttrAccessor → AttrAccessor)
    (h : p.getAttribute s = some a)
    (hq : q.attributes = p.attributes.map fun sa => (sa.1, g sa.2)) :
    q.getAttribute s = some (g a) := by
  obtain ⟨sa, hfind, hsa⟩ : ∃ sa, p.attributes.find?
      (fun sa => sa.1 = s) = some sa ∧ sa.2 = a := by
    unfold Primitive.getAttribute at h
    rcases hf : p.attributes.find? (fun sa => sa.1 = s) with _ | sa
    · rw [hf] at h
      simp at h
    · rw [hf] at h
      exact ⟨sa, hf, by simpa using h⟩
  unfold Primitive.getAttribute
  rw [hq, find?_key_map p.attributes (fun sa => (sa.1, g sa.2))
    (fun sa => rfl) s, hfind]
  simp [hsa]

/-- Pairwise key distinctness, read through `getD`. -/
lemma pairwise_ne_getD {qk : ℕ → ℤ × ℤ × ℤ} {l : List ℕ}
    (h : l.Pairwise fun a b => qk a ≠ qk b) {i j : ℕ}
    (hij : i < j) (hj : j < l.length) :
    qk (l.getD i 0) ≠ qk (l.getD j 0) := by
  have hi : i < l.length := Nat.lt_trans hij hj
  rw [List.pairwise_iff_getElem] at h
  have := h i j hi hj hij
  rw [List.getD_eq_getElem?_getD, List.getElem?_eq_getElem hi,
    List.getD_eq_getElem?_getD, List.getElem?_eq_getElem hj]
  exact this

/-- `mergeByDistancePrim` is idempotent on a well-formed primitive: after
one pass the canonical vertices have pairwise distinct quantized keys, so
a second pass finds no duplicate and changes nothing. -/
lemma mergeByDistancePrim_idem (tol : ℚ) (p : Primitive)
    (hwf : mergeWF p = true) :
    mergeByDistancePrim tol (mergeByDistancePrim tol p) =
      mergeByDistancePrim tol p := by
  rcases mergeByDistancePrim_present_or_eq tol p with
    ⟨a, arr, ia, iarr, hP, hPd, hI, hId⟩ | heq
  case inr =>
    rw [heq]
    exact heq
  -- extract the element-size fact from well-formedness
  have hwf' := hwf
  simp only [mergeWF, hP, hI, hPd, hId, Bool.and_eq_true,
    decide_eq_true_eq] at hwf'
  obtain ⟨⟨⟨hes3, _hdvd⟩, _hidx⟩, _hattr⟩ := hwf'
  rw [mergeByDistancePrim_eq_of_some hP hPd hI hId]
  set B := buildRemap (quantKey (1 / tol) arr) (arr.length / 3) with hB
  by_cases h0 : arr.length / 3 - B.newToOld.length = 0
  · rw [if_pos h0, mergeByDistancePrim_eq_of_some hP hPd hI hId, ← hB,
      if_pos h0]
  · rw [if_neg h0]
    have hP' : ({ p with
        attributes := p.attributes.map fun sa =>
          (sa.1, compactAttr B.newToOld sa.2)
        indices := some
          ({ ty := ArrCtor.u32,
             data := some (iarr.map fun ix => B.remap.getD ix 0) }) } :
        Primitive).getAttribute "POSITION" =
        some (compactAttr B.newToOld a) :=
      getAttribute_map_val _ hP rfl
    have hPd' : (compactAttr B.newToOld a).data = some
        ((B.newToOld.map fun o =>
          (List.range 3).map fun j => arr.getD (o * 3 + j) 0).flatten) := by
      simp only [compactAttr, hPd, hes3]
    set PD := (B.newToOld.map fun o =>
      (List.range 3).map fun j => arr.getD (o * 3 + j) 0).flatten with hPD
    have hg : ∀ o : ℕ,
        ((List.range 3).map fun j => arr.getD (o * 3 + j) 0).length = 3 := by
      intro o
      simp
    have hlen' : PD.length = B.newToOld.length * 3 :=
      flatten_map_length 3 _ hg _
    have hn' : PD.length / 3 = B.newToOld.length := by
      rw [hlen']
      exact Nat.mul_div_cancel _ (by omega)
    have hinj : ∀ i j, i < j → j < PD.length / 3 →
        quantKey (1 / tol) PD i ≠ quantKey (1 / tol) PD j := by
      intro i j hij hj
      rw [hn'] at hj
      rw [hPD, quantKey_compact _ _ _ i (Nat.lt_trans hij hj),
        quantKey_compact _ _ _ j hj]
      exact pairwise_ne_getD
        (buildRemap_inv (quantKey (1 / tol) arr) (arr.length / 3)).keys_inj
        hij hj
    rw [mergeByDistancePrim_eq_of_some hP' hPd' rfl rfl]
    rw [if_pos]
    rw [buildRemap_of_inj _ _ hinj, List.length_range]
    omega

/-- A primitive with pairwise distinct quantized positions is left
unchanged by `mergeByDistancePrim`. -/
lemma mergeByDistancePrim_of_nodup (tol : ℚ) (p : Primitive)
    (a : AttrAccessor) (arr : List ℚ)
    (hP : p.getAttribute "POSITION" = some a) (hPd : a.data = some arr)
    (hnodup : ∀ i j, i < j → j < arr.length / 3 →
      quantKey (1 / tol) arr i ≠ quantKey (1 / tol) arr j) :
    mergeByDistancePrim tol p = p := by
  rcases mergeByDistancePrim_present_or_eq tol p with
    ⟨a', arr', ia, iarr, hP', hPd', hI, hId⟩ | heq
  · have ha : a' = a := by
      rw [hP] at hP'
      exact (Option.some.inj hP').symm
    subst ha
    have harr : arr' = arr := by
      rw [hPd] at hPd'
      exact (Option.some.inj hPd').symm
    subst harr
    rw [mergeByDistancePrim_eq_of_some hP hPd hI hId]
    rw [if_pos]
    rw [buildRemap_of_inj _ _ hnodup, List.length_range]
    omega
  · exact heq

/-- C4: `mergeByDistance` is idempotent on well-formed documents, and a
primitive with no two identically-quantized vertices is left with every
index and attribute buffer unchanged. -/
theorem mergeByDistance_idempotent (tol : ℚ)
    (meshes : List (List Primitive)) (_htol : 0 < tol)
    (hwf : ∀ prims ∈ meshes, ∀ p ∈ prims, mergeWF p = true) :
    mergeByDistance tol (mergeByDistance tol meshes) =
      mergeByDistance tol meshes ∧
    (∀ prims ∈ meshes, ∀ p ∈ prims, ∀ a arr,
      p.getAttribute "POSITION" = some a → a.data = some arr →
      (∀ i j, i < j → j < arr.length / 3 →
        quantKey (1 / tol) arr i ≠ quantKey (1 / tol) arr j) →
      mergeByDistancePrim tol p = p) := by
  constructor
  · unfold mergeByDistance
    rw [List.map_map]
    apply List.map_congr_left
    intro prims hprims
    simp only [Function.comp_apply]
    rw [List.map_map]
    apply List.map_congr_left
    intro p hp
    simp only [Function.comp_apply]
    exact mergeByDistancePrim_idem tol p (hwf prims hprims p hp)
  · intro prims _ p _ a arr hP hPd hnodup
    exact mergeByDistancePrim_of_nodup tol p a arr hP hPd hnodup

/-- Witness for `mergeByDistance_idempotent` on a document with one
primitive holding two coincident vertices. -/
theorem mergeByDistance_idempotent_witness :
    mergeByDistance 1 (mergeByDistance 1 [[mergeExample]]) =
      mergeByDistance 1 [[mergeExample]] :=
  (mergeByDistance_idempotent 1 [[mergeExample]] (by norm_num)
    (by decide)).1

/-- C5: on a well-formed primitive whose indices are all in range, after
`mergeByDistancePrim` the vertex count does not grow and every rebuilt
index refers to an existing vertex. -/
theorem mergeByDistancePrim_bounds (tol : ℚ) (p : Primitive)
    (hwf : mergeWF p = true)
    (hidx : ∀ ia iarr, p.indices = some ia → ia.data = some iarr →
      ∀ ix ∈ iarr, ix < vertCountOf p) :
    vertCountOf (mergeByDistancePrim tol p) ≤ vertCountOf p ∧
    (∀ ia iarr, (mergeByDistancePrim tol p).indices = some ia →
      ia.data = some iarr →
      ∀ ix ∈ iarr, ix < vertCountOf (mergeByDistancePrim tol p)) := by
  rcases mergeByDistancePrim_present_or_eq tol p with
    ⟨a, arr, ia, iarr, hP, hPd, hI, hId⟩ | heq
  case inr =>
    rw [heq]
    exact ⟨Nat.le_refl _, hidx⟩
  have hwf' := hwf
  simp only [mergeWF, hP, hI, hPd, hId, Bool.and_eq_true,
    decide_eq_true_eq] at hwf'
  obtain ⟨⟨⟨hes3, _hdvd⟩, _hidxb⟩, _hattr⟩ := hwf'
  have hvp : vertCountOf p = arr.length / 3 := by
    simp only [vertCountOf, hP, hPd]
  rw [mergeByDistancePrim_eq_of_some hP hPd hI hId]
  set B := buildRemap (quantKey (1 / tol) arr) (arr.length / 3) with hB
  by_cases h0 : arr.length / 3 - B.newToOld.length = 0
  · rw [if_pos h0]
    exact ⟨Nat.le_refl _, hidx⟩
  · rw [if_neg h0]
    have hP' : ({ p with
        attributes := p.attributes.map fun sa =>
          (sa.1, compactAttr B.newToOld sa.2)
        indices := some
          ({ ty := ArrCtor.u32,
             data := some (iarr.map fun ix => B.remap.getD ix 0) }) } :
        Primitive).getAttribute "POSITION" =
        some (compactAttr B.newToOld a) :=
      getAttribute_map_val _ hP rfl
    have hPd' : (compactAttr B.newToOld a).data = some
        ((B.newToOld.map fun o =>
          (List.range 3).map fun j => arr.getD (o * 3 + j) 0).flatten) := by
      simp only [compactAttr, hPd, hes3]
    have hg : ∀ o : ℕ,
        ((List.range 3).map fun j => arr.getD (o * 3 + j) 0).length = 3 := by
      intro o
      simp
    have hvP' : vertCountOf ({ p with
        attributes := p.attributes.map fun sa =>
          (sa.1, compactAttr B.newToOld sa.2)
        indices := some
          ({ ty := ArrCtor.u32,
             data := some (iarr.map fun ix => B.remap.getD ix 0) }) } :
        Primitive) = B.newToOld.length := by
      simp only [vertCountOf, hP', hPd']
      rw [flatten_map_length 3 _ hg]
      exact Nat.mul_div_cancel _ (by omega)
    constructor
    · rw [hvP', hvp, hB]
      exact buildRemap_newToOld_le _ _
    · intro ia' iarr' hia' hiarr' ix hix
      have hia'' : ia' =
          ({ ty := ArrCtor.u32,
             data := some (iarr.map fun ix => B.remap.getD ix 0) } :
            IndexAccessor) :=
        (Option.some.inj hia').symm
      subst hia''
      have hiarr'' : iarr' = iarr.map fun ix => B.remap.getD ix 0 :=
        (Option.some.inj hiarr').symm
      subst hiarr''
      obtain ⟨ix0, hix0, rfl⟩ := List.mem_map.mp hix
      have hb0 : ix0 < arr.length / 3 := by
        have := hidx ia iarr hI hId ix0 hix0
        rwa [hvp] at this
      have hrl : B.remap.length = arr.length / 3 := by
        rw [hB]
        exact buildRemap_remap_length _ _
      have hmem : B.remap.getD ix0 0 ∈ B.remap := by
        rw [List.getD_eq_getElem?_getD,
          List.getElem?_eq_getElem (by omega : ix0 < B.remap.length)]
        exact List.getElem_mem _
      rw [hvP']
      exact (buildRemap_inv (quantKey (1 / tol) arr)
        (arr.length / 3)).remap_lt _ (hB ▸ hmem)

/-- Witness for `mergeByDistancePrim_bounds` on the coincident-vertex
primitive. -/
theorem mergeByDistancePrim_bounds_witness :
    vertCountOf (mergeByDistancePrim 1 mergeExample) ≤
      vertCountOf mergeExample :=
  (mergeByDistancePrim_bounds 1 mergeExample (by decide)
    (by
      intro ia iarr hia hiarr ix hix
      have hia' : ia = { ty := ArrCtor.u16, data := some [0, 1] } :=
        (Option.some.inj hia).symm
      subst hia'
      have hiarr' : iarr = [0, 1] := (Option.some.inj hiarr).symm
      subst hiarr'
      show ix < vertCountOf mergeExample
      simp only [List.mem_cons, List.not_mem_nil, or_false] at hix
      rcases hix with rfl | rfl <;> decide)).1

/-! ### Channel addressing (C1, C8) -/

/-- Membership in an index-enumerated list. -/
lemma mem_enumFrom' {l : List α} :
    ∀ {n i : ℕ} {a : α},
    (i, a) ∈ enumFrom' n l ↔ ∃ k, i = n + k ∧ l[k]? = some a := by
  induction l with
  | nil => simp [enumFrom']
  | cons x xs ih =>
      intro n i a
      simp only [enumFrom', List.mem_cons, Prod.mk.injEq, ih]
      constructor
      · rintro (⟨rfl, rfl⟩ | ⟨k, rfl, hk⟩)
        · exact ⟨0, by omega, by simp⟩
        · exact ⟨k + 1, by omega, by simpa using hk⟩
      · rintro ⟨k, rfl, hk⟩
        cases k with
        | zero =>
            left
            refine ⟨by omega, ?_⟩
            simpa using hk.symm
        | succ k' =>
            right
            refine ⟨k', by omega, by simpa using hk⟩

/-- A channel address is in the worklist exactly when `channelAt` finds
that channel there. -/
lemma channelsOf_mem {doc : AnimDoc} {ai ci : ℕ} {c : Channel} :
    ((ai, ci), c) ∈ channelsOf doc ↔ channelAt doc ai ci = some c := by
  unfold channelsOf channelAt
  rw [List.mem_flatMap]
  constructor
  · rintro ⟨⟨ai', anim⟩, hanim, hmem⟩
    rw [List.mem_map] at hmem
    obtain ⟨⟨ci', ch⟩, hch, heq⟩ := hmem
    have h1 : ai' = ai := by
      have := congrArg (fun x => x.1.1) heq
      simpa using this
    have h2 : ci' = ci := by
      have := congrArg (fun x => x.1.2) heq
      simpa using this
    have h3 : ch = c := by
      have := congrArg (fun x => x.2) heq
      simpa using this
    obtain ⟨k, hk, hak⟩ := mem_enumFrom'.mp hanim
    obtain ⟨k', hk', hck⟩ := mem_enumFrom'.mp hch
    have hka : doc.animations[ai]? = some anim := by
      rw [show ai = k from by omega]
      exact hak
    have hkc : anim.channels[ci]? = some c := by
      rw [show ci = k' from by omega, ← h3]
      exact hck
    rw [hka]
    simpa using hkc
  · intro h
    rcases ha : doc.animations[ai]? with _ | anim
    · rw [ha] at h
      simp at h
    · rw [ha] at h
      simp only [Option.some_bind] at h
      refine ⟨(ai, anim), mem_enumFrom'.mpr ⟨ai, by omega, ha⟩, ?_⟩
      rw [List.mem_map]
      exact ⟨(ci, c), mem_enumFrom'.mpr ⟨ci, by omega, h⟩, rfl⟩

/-- Distinct channels never share an address. -/
lemma channelsOf_addr_unique {doc : AnimDoc} {a : Addr} {c c' : Channel}
    (h1 : (a, c) ∈ channelsOf doc) (h2 : (a, c') ∈ channelsOf doc) :
    c = c' := by
  obtain ⟨ai, ci⟩ := a
  have e1 := channelsOf_mem.mp h1
  have e2 := channelsOf_mem.mp h2
  rw [e1] at e2
  exact Option.some.inj e2

/-! ### The deletion pass (C1, C8) -/

/-- An address ends up removed exactly when its channel is in the worklist
and the removal decision fires for it. -/
lemma runPass3_removed_mem (doc : AnimDoc) (tol : ℚ) :
    ∀ (l : List (Addr × Channel)) (st : Pass3State) (a : Addr),
    (a ∈ (runPass3 doc tol l st).removed ↔
      a ∈ st.removed ∨ ∃ c, (a, c) ∈ l ∧ shouldRemove doc tol c = true) := by
  intro l
  induction l with
  | nil =>
      intro st a
      simp [runPass3]
  | cons hd rest ih =>
      intro st a
      obtain ⟨a', c'⟩ := hd
      by_cases hrem : shouldRemove doc tol c'
      · rw [show runPass3 doc tol ((a', c') :: rest) st =
            runPass3 doc tol rest
              { live := st.live.filter fun e => !(e.1 = a')
                removed := st.removed ++ [a']
                disposed := match c'.sampler with
                  | some sid =>
                      if (doc.samplers.get? sid).isSome &&
                          1 + (st.live.filter fun e =>
                            !(e.1 = a')).countP
                              (fun e => e.2.sampler = some sid) ≤ 1 then
                        st.disposed ++ [sid]
                      else st.disposed
                  | none => st.disposed }
            from by rw [runPass3, if_pos hrem]]
        rw [ih]
        constructor
        · rintro (hmem | ⟨c, hc, hsc⟩)
          · rcases List.mem_append.mp hmem with h | h
            · exact Or.inl h
            · simp only [List.mem_cons, List.not_mem_nil, or_false] at h
              subst h
              exact Or.inr ⟨c', List.mem_cons_self _ _, hrem⟩
          · exact Or.inr ⟨c, List.mem_cons_of_mem _ hc, hsc⟩
        · rintro (hmem | ⟨c, hc, hsc⟩)
          · exact Or.inl (List.mem_append.mpr (Or.inl hmem))
          · rcases List.mem_cons.mp hc with heq | hc'
            · have : a = a' := congrArg Prod.fst heq
              subst this
              exact Or.inl (List.mem_append.mpr (Or.inr (by simp)))
            · exact Or.inr ⟨c, hc', hsc⟩
      · rw [show runPass3 doc tol ((a', c') :: rest) st =
            runPass3 doc tol rest st
            from by rw [runPass3, if_neg hrem]]
        rw [ih]
        constructor
        · rintro (hmem | ⟨c, hc, hsc⟩)
          · exact Or.inl hmem
          · exact Or.inr ⟨c, List.mem_cons_of_mem _ hc, hsc⟩
        · rintro (hmem | ⟨c, hc, hsc⟩)
          · exact Or.inl hmem
          · rcases List.mem_cons.mp hc with heq | hc'
            · have hca : c = c' := congrArg Prod.snd heq
              subst hca
              exact absurd hsc hrem
            · exact Or.inr ⟨c, hc', hsc⟩

/-- Through the deletion pass, a retained channel stays live, and no
sampler it references is ever disposed: a disposal requires zero remaining
live referrers, and the retained channel is always a live referrer. -/
lemma runPass3_retained_safe (doc : AnimDoc) (tol : ℚ) :
    ∀ (l : List (Addr × Channel)) (st : Pass3State) (a : Addr)
      (c : Channel) (sid : ℕ),
    (a, c) ∈ st.live → shouldRemove doc tol c = false →
    c.sampler = some sid →
    (∀ p ∈ l, p.1 = a → p.2 = c) →
    (a, c) ∈ (runPass3 doc tol l st).live ∧
    (∀ s ∈ (runPass3 doc tol l st).disposed, s ∈ st.disposed ∨ s ≠ sid) := by
  intro l
  induction l with
  | nil =>
      intro st a c sid hlive _ _ _
      exact ⟨hlive, fun s hs => Or.inl hs⟩
  | cons hd rest ih =>
      intro st a c sid hlive hkeep hsid hcons
      obtain ⟨a', c'⟩ := hd
      by_cases hrem : shouldRemove doc tol c'
      · rw [show runPass3 doc tol ((a', c') :: rest) st =
            runPass3 doc tol rest
              { live := st.live.filter fun e => !(e.1 = a')
                removed := st.removed ++ [a']
                disposed := match c'.sampler with
                  | some sid' =>
                      if (doc.samplers.get? sid').isSome &&
                          1 + (st.live.filter fun e =>
                            !(e.1 = a')).countP
                              (fun e => e.2.sampler = some sid') ≤ 1 then
                        st.disposed ++ [sid']
                      else st.disposed
                  | none => st.disposed }
            from by rw [runPass3, if_pos hrem]]
        have hne : a ≠ a' := by
          intro heq
          subst heq
          have := hcons (a, c') (List.mem_cons_self _ _) rfl
          subst this
          rw [hrem] at hkeep
          cases hkeep
        have hlive' : (a, c) ∈ st.live.filter fun e => !(e.1 = a') := by
          rw [List.mem_filter]
          exact ⟨hlive, by simpa using hne⟩
        have hcons' : ∀ p ∈ rest, p.1 = a → p.2 = c := fun p hp =>
          hcons p (List.mem_cons_of_mem _ hp)
        obtain ⟨hl, hd⟩ := ih
          ({ live := st.live.filter fun e => !(e.1 = a')
             removed := st.removed ++ [a']
             disposed := match c'.sampler with
               | some sid' =>
                   if (doc.samplers.get? sid').isSome &&
                       1 + (st.live.filter fun e =>
                         !(e.1 = a')).countP
                           (fun e => e.2.sampler = some sid') ≤ 1 then
                     st.disposed ++ [sid']
                   else st.disposed
               | none => st.disposed })
          a c sid hlive' hkeep hsid hcons'
        refine ⟨hl, fun s hs => ?_⟩
        rcases hd s hs with hmem | hne'
        · rcases hsamp : c'.sampler with _ | sid'
          · rw [hsamp] at hmem
            exact Or.inl hmem
          · rw [hsamp] at hmem
            have hmem' : s ∈ (if (doc.samplers.get? sid').isSome &&
                1 + (st.live.filter fun e =>
                  !(e.1 = a')).countP
                    (fun e => e.2.sampler = some sid') ≤ 1 then
                st.disposed ++ [sid']
              else st.disposed) := hmem
            by_cases hguard : ((doc.samplers.get? sid').isSome &&
                1 + (st.live.filter fun e =>
                  !(e.1 = a')).countP
                    (fun e => e.2.sampler = some sid') ≤ 1) = true
            · rw [if_pos hguard] at hmem'
              rcases List.mem_append.mp hmem' with h1 | h1
              · exact Or.inl h1
              · simp only [List.mem_cons, List.not_mem_nil, or_false] at h1
                subst h1
                right
                intro heq
                subst heq
                rw [Bool.and_eq_true, decide_eq_true_eq] at hguard
                have hcount : 0 < (st.live.filter fun e =>
                    !(e.1 = a')).countP
                      (fun e => e.2.sampler = some s) := by
                  rw [List.countP_pos_iff]
                  exact ⟨(a, c), hlive', by simpa using hsid⟩
                omega
            · rw [if_neg hguard] at hmem'
              exact Or.inl hmem'
        · exact Or.inr hne'
      · rw [show runPass3 doc tol ((a', c') :: rest) st =
            runPass3 doc tol rest st
            from by rw [runPass3, if_neg hrem]]
        exact ih st a c sid hlive hkeep hsid fun p hp =>
          hcons p (List.mem_cons_of_mem _ hp)

/-- C8: a sampler referenced by a channel the deletion pass retains is
never disposed — shared samplers are only deallocated once no channel
references them, so no surviving channel ends up with a dangling sampler
reference. -/
theorem removeStaticTracks_sampler_safety (doc : AnimDoc) (tol : ℚ)
    (ai ci : ℕ) (c : Channel) (sid : ℕ)
    (hc : channelAt doc ai ci = some c)
    (hkeep : shouldRemove doc tol c = false)
    (hsid : c.sampler = some sid) :
    sid ∉ (removeStaticTracksWithBake doc tol).disposed := by
  intro hmem
  have hchan : ((ai, ci), c) ∈ channelsOf doc := channelsOf_mem.mpr hc
  have hcons : ∀ p ∈ channelsOf doc, p.1 = (ai, ci) → p.2 = c := by
    rintro ⟨a', c'⟩ hp heq
    subst heq
    exact channelsOf_addr_unique hp hchan
  have := (runPass3_retained_safe doc tol (channelsOf doc)
    ⟨channelsOf doc, [], []⟩ (ai, ci) c sid hchan hkeep hsid hcons).2
    sid hmem
  rcases this with h | h
  · cases h
  · exact h rfl

/-- Witness for `removeStaticTracks_sampler_safety`: the sampler of a
channel with no target node survives the pass. -/
theorem removeStaticTracks_sampler_safety_witness :
    0 ∉ (removeStaticTracksWithBake retainedExample 1).disposed :=
  removeStaticTracks_sampler_safety retainedExample 1 0 0
    ({ sampler := some 0, targetNode := none, targetPath := none }) 0
    rfl rfl rfl

/-! ### Consensus analysis (C1) -/

/-- Pass 1 records nothing for a channel whose key is not the one under
consideration. -/
lemma trackInfoFor_of_ne {doc : AnimDoc} {tol : ℚ} {k : ℤ × Path}
    {c : Channel} (h : chanKey doc c ≠ some k) :
    trackInfoFor doc tol k c = none := by
  unfold trackInfoFor
  rcases hgs : getSampler doc c with _ | s
  · simp only [hgs]
  · simp only [hgs]
    rw [if_neg h]

/-- A well-formed channel with a key has a sampler with a non-empty output
array. -/
lemma wfChannel_output {doc : AnimDoc} {c : Channel} {k : ℤ × Path}
    (hwfc : wfChannelB doc c = true) (hk : chanKey doc c = some k) :
    ∃ es arr, chanOutput doc c = some (es, arr) ∧ arr ≠ [] := by
  have hnode : c.targetNode.isSome = true ∧ c.targetPath.isSome = true := by
    unfold chanKey at hk
    cases hn : c.targetNode with
    | none =>
        rw [hn] at hk
        simp at hk
    | some n =>
        cases hp : c.targetPath with
        | none =>
            rw [hn, hp] at hk
            simp at hk
        | some pa => exact ⟨rfl, rfl⟩
  unfold wfChannelB at hwfc
  rw [hnode.1, hnode.2] at hwfc
  simp only [Bool.and_self, Bool.not_true, Bool.false_or] at hwfc
  rcases ho : chanOutput doc c with _ | ea
  · rw [ho] at hwfc
    simp at hwfc
  · rw [ho] at hwfc
    refine ⟨ea.1, ea.2, rfl, ?_⟩
    simpa using hwfc

/-- Pass 1's record for a well-formed channel with the key under
consideration, in the claim's vocabulary. -/
lemma trackInfoFor_of_key {doc : AnimDoc} {tol : ℚ} {k : ℤ × Path}
    {c : Channel} (hwfc : wfChannelB doc c = true)
    (hk : chanKey doc c = some k) :
    trackInfoFor doc tol k c = some
      ({ isStatic := chanIsStatic doc tol c
         staticValue := if chanIsStatic doc tol c then chanFirstVal doc c
           else none }) := by
  obtain ⟨es, arr, ho, hne⟩ := wfChannel_output hwfc hk
  obtain ⟨acc, h1, h2⟩ := Option.bind_eq_some.mp ho
  obtain ⟨smp, hgs, hout⟩ := Option.bind_eq_some.mp h1
  obtain ⟨arr', hdat, heq⟩ := Option.map_eq_some'.mp h2
  have hes : acc.elementSize = es := congrArg Prod.fst heq
  have harr : arr = arr' := (congrArg Prod.snd heq).symm
  subst harr
  have hcs : chanIsStatic doc tol c = isStaticArr tol es arr := by
    unfold chanIsStatic
    rw [ho]
  have hfv : chanFirstVal doc c = some (arr.take es) := by
    unfold chanFirstVal
    rw [ho]
    rfl
  unfold trackInfoFor
  simp only [hgs]
  rw [if_pos hk]
  simp only [hout, hdat]
  rw [if_neg (fun h => hne (List.eq_nil_of_length_eq_zero h))]
  unfold mkTrackInfo
  rw [hes, hcs, hfv]

/-- Channels selected by `channelsTargeting` carry the key. -/
lemma chanKey_of_targeting {doc : AnimDoc} {k : ℤ × Path} {c : Channel}
    (h : c ∈ channelsTargeting doc k) : chanKey doc c = some k := by
  unfold channelsTargeting at h
  have := List.of_mem_filter h
  simpa using this

/-- Under well-formedness, Pass 1's track list for a key is exactly the
per-channel records of the channels targeting that key, in order. -/
lemma tracksFor_eq (doc : AnimDoc) (tol : ℚ) (k : ℤ × Path)
    (hwf : wfAnimDoc doc = true) :
    tracksFor doc tol k = (channelsTargeting doc k).map fun c =>
      ({ isStatic := chanIsStatic doc tol c
         staticValue := if chanIsStatic doc tol c then chanFirstVal doc c
           else none }) := by
  unfold tracksFor channelsTargeting
  have hwf' : ∀ ac ∈ channelsOf doc, wfChannelB doc ac.2 = true := by
    intro ac hac
    have := List.all_eq_true.mp hwf ac hac
    simpa using this
  generalize channelsOf doc = l at hwf' ⊢
  induction l with
  | nil => rfl
  | cons hd rest ih =>
      have hhd := hwf' hd (List.mem_cons_self _ _)
      have hrest : ∀ ac ∈ rest, wfChannelB doc ac.2 = true := fun ac hac =>
        hwf' ac (List.mem_cons_of_mem _ hac)
      by_cases hk : chanKey doc hd.2 = some k
      · rw [List.filterMap_cons, trackInfoFor_of_key hhd hk,
          List.map_cons, List.filter_cons_of_pos (by simpa using hk),
          List.map_cons]
        exact congrArg _ (ih hrest)
      · rw [List.filterMap_cons, trackInfoFor_of_ne hk,
          List.map_cons, List.filter_cons_of_neg (by simpa using hk)]
        exact ih hrest

/-- `all` over a `map`, rewritten through a pointwise equation. -/
lemma all_map_congr {α β : Type} (f : α → β) (p : β → Bool) (q : α → Bool) :
    ∀ l : List α, (∀ x ∈ l, p (f x) = q x) → (l.map f).all p = l.all q := by
  intro l
  induction l with
  | nil =>
      intro _
      rfl
  | cons a as ih =>
      intro h
      rw [List.map_cons, List.all_cons, List.all_cons,
        h a (List.mem_cons_self _ _),
        ih fun x hx => h x (List.mem_cons_of_mem _ hx)]

/-- `tracksFor` as a `map` of `trackRec`. -/
lemma tracksFor_eq_trackRec (doc : AnimDoc) (tol : ℚ) (k : ℤ × Path)
    (hwf : wfAnimDoc doc = true) :
    tracksFor doc tol k =
      (channelsTargeting doc k).map (trackRec doc tol) := by
  rw [tracksFor_eq doc tol k hwf]
  rfl

/-- On a well-formed document, Pass 2's removability test is exactly the
first-anchored consensus predicate. -/
lemma removableB_eq_firstAnchored (doc : AnimDoc) (tol : ℚ) (k : ℤ × Path)
    (hwf : wfAnimDoc doc = true) :
    removableB doc tol k = firstAnchoredConsensus doc tol k := by
  unfold removableB firstAnchoredConsensus
  rw [tracksFor_eq_trackRec doc tol k hwf]
  cases hcs : channelsTargeting doc k with
  | nil => rfl
  | cons c0 rest =>
    simp only [List.map_cons]
    by_cases hall : ((c0 :: rest).all (chanIsStatic doc tol)) = true
    · have hc0 : chanIsStatic doc tol c0 = true :=
        List.all_eq_true.mp hall c0 (List.mem_cons_self _ _)
      have hany : ((trackRec doc tol c0 :: rest.map (trackRec doc tol)).any
          fun t => !t.isStatic) = false := by
        rw [List.any_eq_false]
        intro t ht
        rcases List.mem_cons.mp ht with rfl | hmem
        · intro h
          have h' : (!(chanIsStatic doc tol c0)) = true := h
          rw [hc0] at h'
          simp at h'
        · rcases List.mem_map.mp hmem with ⟨c, hcmem, rfl⟩
          intro h
          have hstat : chanIsStatic doc tol c = true :=
            List.all_eq_true.mp hall c (List.mem_cons_of_mem _ hcmem)
          have h' : (!(chanIsStatic doc tol c)) = true := h
          rw [hstat] at h'
          simp at h'
      have hcond : ¬(((trackRec doc tol c0 ::
          rest.map (trackRec doc tol)).any fun t => !t.isStatic) = true) := by
        rw [hany]
        exact Bool.false_ne_true
      rw [if_neg hcond]
      have hsv : (trackRec doc tol c0).staticValue = chanFirstVal doc c0 := by
        unfold trackRec
        rw [if_pos hc0]
      rw [hsv, hall, Bool.true_and]
      cases hfv : chanFirstVal doc c0 with
      | none => simp
      | some reference =>
          simp only []
          congr 1
          · rw [show trackRec doc tol c0 :: rest.map (trackRec doc tol) =
                (c0 :: rest).map (trackRec doc tol)
              from (List.map_cons _ _ _).symm]
            apply all_map_congr
            intro c hcmem
            have hstat : chanIsStatic doc tol c = true :=
              List.all_eq_true.mp hall c hcmem
            have hsv' : (trackRec doc tol c).staticValue =
                chanFirstVal doc c := by
              unfold trackRec
              rw [if_pos hstat]
            rw [hsv']
            cases chanFirstVal doc c with
            | none => rfl
            | some v => rfl
          · unfold restPoseOf
            by_cases h01 : 0 ≤ k.1
            · rw [decide_eq_true h01, Bool.true_and, if_pos h01]
              cases hn : doc.nodes.get? k.1.toNat with
              | none => rfl
              | some node => simp only [Option.some_bind]
            · rw [decide_eq_false h01, Bool.false_and, if_neg h01]
    · have hallf : ((c0 :: rest).all (chanIsStatic doc tol)) = false := by
        rwa [Bool.eq_false_iff]
      have hex : ∃ c, c ∈ (c0 :: rest) ∧ chanIsStatic doc tol c = false := by
        by_contra hcon
        push_neg at hcon
        apply hall
        rw [List.all_eq_true]
        intro x hx
        cases h : chanIsStatic doc tol x with
        | true => rfl
        | false => exact absurd h (hcon x hx)
      obtain ⟨c, hcmem, hcf⟩ := hex
      have hany : ((trackRec doc tol c0 :: rest.map (trackRec doc tol)).any
          fun t => !t.isStatic) = true := by
        rw [show trackRec doc tol c0 :: rest.map (trackRec doc tol) =
            (c0 :: rest).map (trackRec doc tol)
          from (List.map_cons _ _ _).symm, List.any_eq_true]
        refine ⟨trackRec doc tol c, List.mem_map_of_mem _ hcmem, ?_⟩
        show (!(chanIsStatic doc tol c)) = true
        rw [hcf]
        rfl
      rw [if_pos hany, hallf, Bool.false_and]

/-- C1 (amended): on a well-formed document, `removeStaticTracksWithBake`
removes a channel exactly when the channel carries a key and that key
reaches consensus anchored at the *first* channel recorded for it: every
channel targeting the key is static, each static value lies within the
tolerance of the first channel's static value, and the node's rest-pose
value for the path lies within the tolerance of that same first value.
(The claim's pairwise-agreement reading is refuted separately.) -/
theorem removeStaticTracks_removes_iff (doc : AnimDoc) (tol : ℚ)
    (ai ci : ℕ) (c : Channel) (hwf : wfAnimDoc doc = true)
    (hc : channelAt doc ai ci = some c) :
    ((ai, ci) ∈ (removeStaticTracksWithBake doc tol).removed ↔
      ∃ k, chanKey doc c = some k ∧
        firstAnchoredConsensus doc tol k = true) := by
  unfold removeStaticTracksWithBake
  rw [runPass3_removed_mem]
  simp only [List.not_mem_nil, false_or]
  constructor
  · rintro ⟨c', hmem, hsr⟩
    have hcc : c' = c :=
      channelsOf_addr_unique hmem (channelsOf_mem.mpr hc)
    subst hcc
    unfold shouldRemove at hsr
    rcases hk : chanKey doc c' with _ | k
    · rw [hk] at hsr
      simp at hsr
    · rw [hk] at hsr
      have hr : removableB doc tol k = true := hsr
      rw [removableB_eq_firstAnchored doc tol k hwf] at hr
      exact ⟨k, rfl, hr⟩
  · rintro ⟨k, hk, hcons⟩
    refine ⟨c, channelsOf_mem.mpr hc, ?_⟩
    unfold shouldRemove
    rw [hk]
    show removableB doc tol k = true
    rw [removableB_eq_firstAnchored doc tol k hwf]
    exact hcons

/-- Witness for `removeStaticTracks_removes_iff`: the second channel of
`consensusExample`'s single animation. -/
theorem removeStaticTracks_removes_iff_witness :
    wfAnimDoc consensusExample = true ∧
    channelAt consensusExample 0 1 = some
      ({ sampler := some 1, targetNode := some 0,
         targetPath := some Path.translation }) ∧
    ((0, 1) ∈ (removeStaticTracksWithBake consensusExample 1).removed ↔
      ∃ k, chanKey consensusExample
          ({ sampler := some 1, targetNode := some 0,
             targetPath := some Path.translation }) = some k ∧
        firstAnchoredConsensus consensusExample 1 k = true) :=
  ⟨by decide, by decide,
    removeStaticTracks_removes_iff consensusExample 1 0 1
      ({ sampler := some 1, targetNode := some 0,
         targetPath := some Path.translation }) (by decide) (by decide)⟩

/-- C1, the claim as stated is refuted: in `consensusExample` the three
static values `[0]`, `[1]`, `[-1]` all lie within the tolerance `1` of the
first channel's value `[0]` and of the rest pose, so the code removes
channel `(0, 1)` — yet `[1]` and `[-1]` differ by `2 > 1`, so the claim's
pairwise agreement ("all channels' static values agree with each other")
is false for the key, under which the claim says the channel is
retained. -/
theorem removeStaticTracks_pairwise_claim_false :
    wfAnimDoc consensusExample = true ∧
    channelAt consensusExample 0 1 = some
      ({ sampler := some 1, targetNode := some 0,
         targetPath := some Path.translation }) ∧
    chanKey consensusExample
      ({ sampler := some 1, targetNode := some 0,
         targetPath := some Path.translation }) =
      some (0, Path.translation) ∧
    (0, 1) ∈ (removeStaticTracksWithBake consensusExample 1).removed ∧
    claimConsensus consensusExample 1 (0, Path.translation) = false := by
  refine ⟨by decide, by decide, by decide, ?_, ?_⟩
  · unfold removeStaticTracksWithBake
    rw [runPass3_removed_mem]
    refine Or.inr ⟨({ sampler := some 1, targetNode := some 0,
                      targetPath := some Path.translation }), by decide, ?_⟩
    unfold shouldRemove
    rw [show chanKey consensusExample
        ({ sampler := some 1, targetNode := some 0,
           targetPath := some Path.translation }) =
        some ((0 : ℤ), Path.translation) from by decide]
    show removableB consensusExample 1 (0, Path.translation) = true
    rw [removableB_eq_firstAnchored consensusExample 1
      (0, Path.translation) (by decide)]
    norm_num [firstAnchoredConsensus, channelsTargeting, channelsOf,
      enumFrom', chanKey, consensusExample, chanIsStatic, chanOutput,
      getSampler, chanFirstVal, agreeOptB, vecAgree, isStaticArr, nearB,
      restPoseOf, baseValueOf, List.range_succ]
  · norm_num [claimConsensus, channelsTargeting, channelsOf, enumFrom',
      chanKey, consensusExample, chanIsStatic, chanOutput, getSampler,
      chanFirstVal, agreeOptB, vecAgree, isStaticArr, nearB, restPoseOf,
      baseValueOf, List.range_succ]

end GlbCompressor
